import Mathlib

/-!
Verification development for the `hoist.ts` node_modules hoisting engine
(packages/yarnpkg-pnpify/sources/hoist.ts).

The dependency graph is embedded shallowly: JavaScript objects become records
addressed by numeric ids into explicit stores (`InForest` for the immutable
input graph, `WStore` for the mutable work tree, `RStore` for the output
tree).  JavaScript `Map`s become association lists with insertion-order
semantics (`mapSet` updates in place, otherwise appends, exactly like
`Map.prototype.set`), `Set`s become duplicate-free lists in insertion order.
Mutation becomes explicit state passing of the stores; graph recursions are
given fuel and return `none` on fuel exhaustion; a thrown `Error` becomes
`Except.error`.
-/

namespace Hoist

/-! ### JavaScript string primitives -/

/-- Does `pat` occur at the head of `hay`? (used to implement `indexOf`,
`startsWith`, `split`, `replace`). -/
def strLeads : List Char → List Char → Bool
  | [], _ => true
  | _ :: _, [] => false
  | p :: ps, h :: hs => p = h && strLeads ps hs

/-- Scan `hay` for the first occurrence of `pat`, reporting its index
(`pos` is the index of the head of `hay` in the original string), `-1` if absent. -/
def jsIndexOfAux (pat : List Char) : List Char → Nat → Int
  | [], pos => if pat.isEmpty then (pos : Int) else -1
  | c :: rest, pos => if strLeads pat (c :: rest) then (pos : Int) else jsIndexOfAux pat rest (pos + 1)

/-- JavaScript `s.indexOf(pat, start)` for a `start ≥ 0`. -/
def jsIndexOfFrom (s pat : String) (start : Nat) : Int :=
  jsIndexOfAux pat.data (s.data.drop start) start

/-- JavaScript `s.indexOf(pat)`. -/
def jsIndexOf (s pat : String) : Int := jsIndexOfFrom s pat 0

/-- JavaScript `s.substring(a, b)`: both indices clamped to `[0, length]`
and swapped when out of order. -/
def jsSubstring (s : String) (a b : Int) : String :=
  let len : Int := (s.length : Int)
  let a' := (min (max a 0) len).toNat
  let b' := (min (max b 0) len).toNat
  let lo := min a' b'
  let hi := max a' b'
  ⟨(s.data.drop lo).take (hi - lo)⟩

/-- JavaScript `s.substring(a)`. -/
def jsSubstringFrom (s : String) (a : Int) : String :=
  jsSubstring s a (s.length : Int)

/-- JavaScript `s.replace(pat, repl)` — replaces the first occurrence only. -/
def jsReplaceFirst (s pat repl : String) : String :=
  let idx := jsIndexOf s pat
  if idx < 0 then s
  else jsSubstring s 0 idx ++ repl ++ jsSubstringFrom s (idx + (pat.length : Int))

/-- JavaScript `s.startsWith(pat)`. -/
def jsStartsWith (s pat : String) : Bool := strLeads pat.data s.data

/-! ### JavaScript `Map` and `Set` as insertion-ordered association lists -/

/-- `Map.prototype.get`: first (unique) binding of the key. -/
def mapGet {K V : Type} [DecidableEq K] : List (K × V) → K → Option V
  | [], _ => none
  | (k', v) :: rest, k => if k' = k then some v else mapGet rest k

/-- `Map.prototype.has`. -/
def mapHas {K V : Type} [DecidableEq K] (m : List (K × V)) (k : K) : Bool :=
  (mapGet m k).isSome

/-- `Map.prototype.set`: update an existing binding in place (the key keeps
its position in iteration order), otherwise append. -/
def mapSet {K V : Type} [DecidableEq K] : List (K × V) → K → V → List (K × V)
  | [], k, v => [(k, v)]
  | (k', v') :: rest, k, v => if k' = k then (k', v) :: rest else (k', v') :: mapSet rest k v

/-- `Map.prototype.delete`. -/
def mapDelete {K V : Type} [DecidableEq K] (m : List (K × V)) (k : K) : List (K × V) :=
  m.filter (fun e => decide (e.1 ≠ k))

/-- `Set.prototype.add`: append if absent, no-op (keeping position) otherwise. -/
def setAdd {α : Type} [DecidableEq α] (l : List α) (a : α) : List α :=
  if a ∈ l then l else l ++ [a]

/-- `Set.prototype.has`. -/
def setHas {α : Type} [DecidableEq α] (l : List α) (a : α) : Bool :=
  decide (a ∈ l)

/-- `Set.prototype.delete`. -/
def setDelete {α : Type} [DecidableEq α] (l : List α) (a : α) : List α :=
  l.filter (fun x => decide (x ≠ a))

/-! ### Data model

`HoisterTree` is the input node (`dependencies` holds ids into the input
forest, so cyclic input graphs are representable).  `WorkNode` is the
mutable `HoisterWorkTree`; its three maps hold ids into the work store.
`HoisterResultNode` is the output `HoisterResult` node. -/

structure HoisterTree where
  name : String
  identName : String
  reference : String
  dependencies : List Nat
  peerNames : List String
deriving Repr, DecidableEq, Inhabited

/-- The input graph: node ids are list indices. -/
abbrev InForest := List HoisterTree

structure WorkNode where
  name : String
  references : List String
  ident : String
  locator : String
  dependencies : List (String × Nat)
  originalDependencies : List (String × Nat)
  hoistedDependencies : List (String × Nat)
  peerNames : List String
  decoupled : Bool
  reasons : List (String × Option String)
deriving Repr, DecidableEq, Inhabited

/-- The work tree store: work-node ids are list indices; allocation appends. -/
abbrev WStore := List WorkNode

def getN (s : WStore) (i : Nat) : WorkNode := s.getD i default

def setN (s : WStore) (i : Nat) (n : WorkNode) : WStore := s.set i n

def allocN (s : WStore) (n : WorkNode) : WStore × Nat := (s ++ [n], s.length)

/-- `HoistInfo`: the YES / NO(reason) / DEPENDS(dependsOn) classification. -/
inductive HoistInfo where
  | yes : HoistInfo
  | no : Option String → HoistInfo
  | depends : List Nat → HoistInfo
deriving Repr, DecidableEq, Inhabited

structure HoisterResultNode where
  name : String
  identName : String
  references : List String
  dependencies : List Nat
deriving Repr, DecidableEq, Inhabited

/-- The output tree store (output graphs may be cyclic, hence ids again). -/
abbrev RStore := List HoisterResultNode

def getR (s : RStore) (i : Nat) : HoisterResultNode := s.getD i default

def setR (s : RStore) (i : Nat) (n : HoisterResultNode) : RStore := s.set i n

/-- `HoistOptions` — both fields optional as in the source. -/
structure HoistOptions where
  check : Option Bool := none
  debugLevel : Option Int := none
deriving Repr, DecidableEq, Inhabited

/-- `InternalHoistOptions`. -/
structure InternalHoistOptions where
  check : Bool
  debugLevel : Int
deriving Repr, DecidableEq, Inhabited

/-! ### Locators and idents -/

def makeLocator (name reference : String) : String := name ++ "@" ++ reference

/-- `makeIdent`: strip the virtual part of the reference (everything up to
and including the first `#`). -/
def makeIdent (name reference : String) : String :=
  let hashIdx := jsIndexOf reference "#"
  let realReference := if hashIdx ≥ 0 then jsSubstringFrom reference (hashIdx + 1) else reference
  makeLocator name realReference

/-- `getIdentName`: the part of a locator before the first `@` at
position ≥ 1. -/
def getIdentName (locator : String) : String :=
  jsSubstring locator 0 (jsIndexOfFrom locator "@" 1)

/-- `prettyPrintLocator`. -/
def prettyPrintLocator (locator : String) : String :=
  let idx := jsIndexOfFrom locator "@" 1
  let name := jsSubstring locator 0 idx
  let reference := jsSubstringFrom locator (idx + 1)
  if reference = "workspace:." then "."
  else if reference = "" then name
  else
    let version :=
      jsReplaceFirst
        (if jsIndexOf reference "#" > 0 then (reference.splitOn "#").getD 1 "" else reference)
        "npm:" ""
    if jsStartsWith reference "virtual" then "v:" ++ name ++ "@" ++ version
    else name ++ "@" ++ version

/-! ### `cloneTree`

`addNode` keeps a `seen : input id → work id` map; re-seen nodes are
attached without recursing and their reachable non-peer work subgraph is
marked coupled (`markNodeCoupled`). -/

/-- Argument selector for `markNodeCoupled`: visit one work node, or walk
the remainder of its `for dep of node.dependencies` loop.  (Every nested
recursion of the source is embedded this way, as a single fuel-indexed
function over a task type, one constructor per recursion.) -/
inductive MCTask where
  | node (nodeId : Nat)
  | list (entries : List (String × Nat)) (peers : List String)

/-- `markNodeCoupled` (the `.list` case is its
`for dep of node.dependencies` loop). -/
def markNodeCoupledGo : Nat → MCTask → WStore × List Nat → Option (WStore × List Nat)
  | 0, _, _ => none
  | fuel + 1, MCTask.node nodeId, (st, seenCoupled) =>
    if setHas seenCoupled nodeId then some (st, seenCoupled)
    else
      let seenCoupled := setAdd seenCoupled nodeId
      let node := getN st nodeId
      let st := setN st nodeId { node with decoupled := false }
      markNodeCoupledGo fuel (MCTask.list node.dependencies node.peerNames) (st, seenCoupled)
  | _ + 1, MCTask.list [] _, acc => some acc
  | fuel + 1, MCTask.list (e :: rest) peers, (st, seenCoupled) =>
    if setHas peers (getN st e.2).name then
      markNodeCoupledGo fuel (MCTask.list rest peers) (st, seenCoupled)
    else do
      let acc ← markNodeCoupledGo fuel (MCTask.node e.2) (st, seenCoupled)
      markNodeCoupledGo fuel (MCTask.list rest peers) acc

def markNodeCoupled (fuel : Nat) (nodeId : Nat) (acc : WStore × List Nat) :
    Option (WStore × List Nat) :=
  markNodeCoupledGo fuel (MCTask.node nodeId) acc

/-- Builds the fresh work node a first visit of `addNode` creates. -/
def freshWorkNode (node : HoisterTree) : WorkNode :=
  { name := node.name
    references := [node.reference]
    locator := makeLocator node.identName node.reference
    ident := makeIdent node.identName node.reference
    dependencies := []
    originalDependencies := []
    hoistedDependencies := []
    peerNames := node.peerNames
    reasons := []
    decoupled := true }

/-- Argument selector for `addNode` of `cloneTree`. -/
inductive CloneTask where
  | node (nodeId parentId : Nat)
  | list (deps : List Nat) (parentId : Nat)

/-- `addNode` of `cloneTree` (the `.list` case is its recursion over the
dependency list). -/
def cloneAddGo (forest : InForest) :
    Nat → CloneTask → WStore × List (Nat × Nat) → Option (WStore × List (Nat × Nat))
  | 0, _, _ => none
  | fuel + 1, CloneTask.node nodeId parentId, (st, seen) =>
    let node := forest.getD nodeId default
    let found := mapGet seen nodeId
    let isSeen := found.isSome
    let stw : WStore × List (Nat × Nat) × Nat :=
      match found with
      | some w => (st, seen, w)
      | none =>
        let (st, w) := allocN st (freshWorkNode node)
        (st, mapSet seen nodeId w, w)
    let st := stw.1
    let seen := stw.2.1
    let workId := stw.2.2
    let parent := getN st parentId
    let st := setN st parentId
      { parent with
        dependencies := mapSet parent.dependencies node.name workId
        originalDependencies := mapSet parent.originalDependencies node.name workId }
    if isSeen then do
      let (st, _) ← markNodeCoupled fuel workId (st, [])
      some (st, seen)
    else
      cloneAddGo forest fuel (CloneTask.list node.dependencies workId) (st, seen)
  | _ + 1, CloneTask.list [] _, acc => some acc
  | fuel + 1, CloneTask.list (d :: ds) parentId, acc => do
    let acc ← cloneAddGo forest fuel (CloneTask.node d parentId) acc
    cloneAddGo forest fuel (CloneTask.list ds parentId) acc

/-- `cloneTree`: returns the work store together with the id of the work
copy of the root (always `0`). -/
def cloneTree (forest : InForest) (rootId : Nat) (fuel : Nat) : Option (WStore × Nat) := do
  let tree := forest.getD rootId default
  let (st, rootWorkId) := allocN [] (freshWorkNode tree)
  let (st, _) ← cloneAddGo forest fuel (CloneTask.list tree.dependencies rootWorkId)
    (st, [(rootId, rootWorkId)])
  some (st, rootWorkId)

/-! ### `getHoistedDependencies` -/

/-- Argument selector for `addHoistedDependencies`. -/
inductive GhdTask where
  | node (nodeId : Nat)
  | list (entries : List (String × Nat)) (peers : List String)

/-- `addHoistedDependencies` of `getHoistedDependencies`. -/
def ghdGo (st : WStore) (rootId : Nat) :
    Nat → GhdTask → List Nat × List (String × Nat) → Option (List Nat × List (String × Nat))
  | 0, _, _ => none
  | fuel + 1, GhdTask.node nodeId, (seen, hoisted) =>
    if setHas seen nodeId then some (seen, hoisted)
    else
      let seen := setAdd seen nodeId
      let node := getN st nodeId
      let rootNode := getN st rootId
      let hoisted := node.hoistedDependencies.foldl (fun acc e =>
        let dep := getN st e.2
        if mapHas rootNode.dependencies dep.name then acc
        else mapSet acc dep.name e.2) hoisted
      ghdGo st rootId fuel (GhdTask.list node.dependencies node.peerNames) (seen, hoisted)
  | _ + 1, GhdTask.list [] _, acc => some acc
  | fuel + 1, GhdTask.list (e :: rest) peers, acc =>
    if setHas peers (getN st e.2).name then ghdGo st rootId fuel (GhdTask.list rest peers) acc
    else do
      let acc ← ghdGo st rootId fuel (GhdTask.node e.2) acc
      ghdGo st rootId fuel (GhdTask.list rest peers) acc

def getHoistedDependencies (st : WStore) (rootId : Nat) (fuel : Nat) :
    Option (List (String × Nat)) := do
  let (_, hoisted) ← ghdGo st rootId fuel (GhdTask.node rootId) ([], [])
  some hoisted

/-! ### `decoupleGraphNode` -/

/-- Clone-on-write: already-decoupled nodes are returned as they are;
otherwise a shallow copy is allocated (all map and set fields are values in
this embedding, so the field copy is the `new Map(...)` copy), a
self-dependency with the clone's ident is redirected to the clone, and the
parent's edge is repointed at the clone. -/
def decoupleGraphNode (st : WStore) (parentId nodeId : Nat) : WStore × Nat :=
  let node := getN st nodeId
  if node.decoupled then (st, nodeId)
  else
    let clone : WorkNode := { node with decoupled := true }
    let (st, cloneId) := allocN st clone
    let st :=
      match mapGet clone.dependencies clone.name with
      | some selfDepId =>
        if (getN st selfDepId).ident = clone.ident then
          setN st cloneId { clone with dependencies := mapSet clone.dependencies clone.name cloneId }
        else st
      | none => st
    let parent := getN st parentId
    (setN st parentId { parent with dependencies := mapSet parent.dependencies clone.name cloneId },
     cloneId)

/-! ### `buildPopularityMap` -/

/-- Argument selector for `addParent` of `buildPopularityMap`. -/
inductive BpmTask where
  | node (parentId nodeId : Nat)
  | list (parentId : Nat) (entries : List (String × Nat)) (peers : List String)

/-- `addParent` of `buildPopularityMap`. -/
def bpmGo (st : WStore) :
    Nat → BpmTask → List Nat × List (String × List String) →
    Option (List Nat × List (String × List String))
  | 0, _, _ => none
  | fuel + 1, BpmTask.node parentId nodeId, (seen, pm) =>
    let node := getN st nodeId
    let parentNode := getN st parentId
    let isSeen := setHas seen nodeId
    let key := node.name ++ "@" ++ node.ident
    let parents := (mapGet pm key).getD []
    let pm := mapSet pm key (setAdd parents parentNode.ident)
    if isSeen then some (seen, pm)
    else
      let seen := setAdd seen nodeId
      bpmGo st fuel (BpmTask.list nodeId node.dependencies node.peerNames) (seen, pm)
  | _ + 1, BpmTask.list _ [] _, acc => some acc
  | fuel + 1, BpmTask.list parentId (e :: rest) peers, acc =>
    if setHas peers (getN st e.2).name then
      bpmGo st fuel (BpmTask.list parentId rest peers) acc
    else do
      let acc ← bpmGo st fuel (BpmTask.node parentId e.2) acc
      bpmGo st fuel (BpmTask.list parentId rest peers) acc

def buildPopularityMap (st : WStore) (rootId : Nat) (fuel : Nat) :
    Option (List (String × List String)) := do
  let root := getN st rootId
  let (_, pm) ← bpmGo st fuel (BpmTask.list rootId root.dependencies root.peerNames) ([rootId], [])
  some pm

/-! ### `getHoistIdentMap` -/

def popKeySize (pm : List (String × List String)) (k : String) : Nat :=
  ((mapGet pm k).getD []).length

/-- One step of a stable insertion sort realizing the JavaScript stable
`keyList.sort((k1, k2) => size(k2) - size(k1))`: a key is placed after every
already-placed key of greater or equal popularity. -/
def insertPopDesc (pm : List (String × List String)) (k : String) :
    List String → List String
  | [] => [k]
  | k' :: rest =>
    if popKeySize pm k' < popKeySize pm k then k :: k' :: rest
    else k' :: insertPopDesc pm k rest

def sortPopKeys (pm : List (String × List String)) : List String :=
  (pm.map Prod.fst).foldl (fun acc k => insertPopDesc pm k acc) []

/-- The `for (const dep of rootNode.dependencies.values())` step of
`getHoistIdentMap`: pin a direct non-peer dependency's ident. -/
def ghimDepStep (st : WStore) (rootNode : WorkNode) (m : List (String × List String))
    (e : String × Nat) : List (String × List String) :=
  let dep := getN st e.2
  if setHas rootNode.peerNames dep.name then m
  else mapSet m dep.name [dep.ident]

/-- The `for (const key of keyList)` step of `getHoistIdentMap`: append the
key's ident to the name's candidate list when absent. -/
def ghimPopStep (rootNode : WorkNode) (m : List (String × List String)) (key : String) :
    List (String × List String) :=
  let name := jsSubstring key 0 (jsIndexOfFrom key "@" 1)
  let ident := jsSubstringFrom key ((name.length : Int) + 1)
  if setHas rootNode.peerNames name then m
  else
    match mapGet m name with
    | none => mapSet m name [ident]
    | some idents =>
      if setHas idents ident then m else mapSet m name (idents ++ [ident])

def getHoistIdentMap (st : WStore) (rootId : Nat) (pm : List (String × List String)) :
    List (String × List String) :=
  let rootNode := getN st rootId
  (sortPopKeys pm).foldl (ghimPopStep rootNode)
    (rootNode.dependencies.foldl (ghimDepStep st rootNode) [(rootNode.name, [rootNode.ident])])

/-! ### `getSortedRegularDependencies` -/

/-- Argument selector for `addDep` of `getSortedRegularDependencies`. -/
inductive GsrdTask where
  | addDep (depId : Nat)
  | peers (names : List String)

/-- `addDep` of `getSortedRegularDependencies` (the `.peers` case is its
`for (const peerName of dep.peerNames)` loop); the state is
`(seenDeps, dependencies)`. -/
def gsrdGo (st : WStore) (node : WorkNode) :
    Nat → GsrdTask → List Nat × List Nat → Option (List Nat × List Nat)
  | 0, _, _ => none
  | fuel + 1, GsrdTask.addDep depId, (seenDeps, dependencies) =>
    if setHas seenDeps depId then some (seenDeps, dependencies)
    else
      let seenDeps := setAdd seenDeps depId
      let dep := getN st depId
      match gsrdGo st node fuel (GsrdTask.peers dep.peerNames) (seenDeps, dependencies) with
      | none => none
      | some (seenDeps, dependencies) => some (seenDeps, setAdd dependencies depId)
  | _ + 1, GsrdTask.peers [], acc => some acc
  | fuel + 1, GsrdTask.peers (peerName :: rest), (seenDeps, dependencies) => do
    let acc ←
      if setHas node.peerNames peerName then some (seenDeps, dependencies)
      else
        match mapGet node.dependencies peerName with
        | some peerDepId =>
          if setHas dependencies peerDepId then some (seenDeps, dependencies)
          else gsrdGo st node fuel (GsrdTask.addDep peerDepId) (seenDeps, dependencies)
        | none => some (seenDeps, dependencies)
    gsrdGo st node fuel (GsrdTask.peers rest) acc

def gsrdOuter (st : WStore) (node : WorkNode) :
    Nat → List (String × Nat) → List Nat → Option (List Nat)
  | _, [], dependencies => some dependencies
  | 0, _ :: _, _ => none
  | fuel + 1, e :: rest, dependencies => do
    if setHas node.peerNames (getN st e.2).name then gsrdOuter st node fuel rest dependencies
    else do
      let (_, dependencies) ← gsrdGo st node fuel (GsrdTask.addDep e.2) ([], dependencies)
      gsrdOuter st node fuel rest dependencies

/-- `getSortedRegularDependencies`: the non-peer dependencies of `nodeId`,
sibling peer dependencies first (each outer `addDep` starts from a fresh
`seenDeps`, matching the defaulted parameter in the source). -/
def getSortedRegularDependencies (st : WStore) (nodeId : Nat) (fuel : Nat) :
    Option (List Nat) :=
  let node := getN st nodeId
  gsrdOuter st node fuel node.dependencies []

/-! ### `getNodeHoistInfo` -/

/-- State of the peer-dependency scan: the mutable `checkList`,
`dependsOn` (`none` embeds the JavaScript `null`), `arePeerDepsSatisfied`,
the pending `reason`, and whether the inner loop `break` fired. -/
structure PeerScanState where
  checkList : List String
  dependsOn : Option (List Nat)
  satisfied : Bool
  reason : Option String
  broke : Bool
deriving Repr, DecidableEq, Inhabited

/-- One `name` of the `for (const name of checkList)` loop, at ancestor
`parent` (`isLast` iff `idx === nodePath.length - 1`). -/
def gnhiCheckName (st : WStore) (parent : WorkNode) (isLast : Bool)
    (outputReason : Bool) (reasonRoot : String) (s : PeerScanState) (name : String) :
    PeerScanState :=
  if s.broke then s
  else if setHas parent.peerNames name && mapHas parent.originalDependencies name then s
  else
    match mapGet parent.dependencies name with
    | some parentDepId =>
      if isLast then
        { s with
          satisfied := false
          dependsOn := s.dependsOn.map (fun l => setAdd l parentDepId)
          checkList := setDelete s.checkList name }
      else
        { s with
          satisfied := false
          dependsOn := none
          reason :=
            if outputReason then
              some ("- peer dependency " ++ prettyPrintLocator (getN st parentDepId).locator
                ++ " from parent " ++ prettyPrintLocator parent.locator
                ++ " was not hoisted to " ++ reasonRoot)
            else s.reason
          broke := true }
    | none => { s with checkList := setDelete s.checkList name }

/-- One ancestor (`idx`) of the peer scan; iterates the `checkList`
snapshot (only the current element is ever deleted, so the snapshot
iteration coincides with the live `Set` iteration). -/
def gnhiParentStep (st : WStore) (outputReason : Bool) (reasonRoot : String)
    (s : PeerScanState) (parent : Nat × Bool) : PeerScanState :=
  if !s.satisfied then s
  else
    let parentNode := getN st parent.1
    let snapshot := s.checkList
    snapshot.foldl (gnhiCheckName st parentNode parent.2 outputReason reasonRoot)
      { s with broke := false }

/-- The `for (let idx = 1; idx < nodePath.length - 1; idx++)` shadow check:
an intermediate ancestor holding the same name with a different ident makes
the name unavailable. -/
def gnhiShadowLoop (st : WStore) (node : WorkNode) (outputReason : Bool) :
    List Nat → Bool × Option String → Bool × Option String
  | [], acc => acc
  | pid :: rest, (avail, reason) =>
    if !avail then (avail, reason)
    else
      let parent := getN st pid
      match mapGet parent.dependencies node.name with
      | some pdid =>
        if decide ((getN st pdid).ident ≠ node.ident) then
          (false,
           if outputReason then
             some ("- filled by: " ++ prettyPrintLocator (getN st pdid).locator
               ++ " at " ++ prettyPrintLocator parent.locator)
           else reason)
        else gnhiShadowLoop st node outputReason rest (avail, reason)
      | none => gnhiShadowLoop st node outputReason rest (avail, reason)

/-- `getNodeHoistInfo`. `nodePath` runs from the hoist root (index 0) down
to the immediate parent of the candidate `nodeId`. -/
def getNodeHoistInfo (st : WStore) (rootNodePath : List String) (nodePath : List Nat)
    (nodeId : Nat) (hoistedDependencies : List (String × Nat))
    (hoistIdents : List (String × String)) (hoistIdentMap : List (String × List String))
    (outputReason : Bool) : HoistInfo :=
  let node := getN st nodeId
  let reasonRoot :=
    if outputReason then String.intercalate "→" (rootNodePath.map prettyPrintLocator) else ""
  let parentNode := getN st (nodePath.getLastD 0)
  let isSelfReference : Bool := decide (node.ident = parentNode.ident)
  let hoistedIdent := mapGet hoistIdents node.name
  let isHoistable : Bool := decide (hoistedIdent = some node.ident) && !isSelfReference
  let reason : Option String :=
    if outputReason && !isHoistable && hoistedIdent.isSome then
      some ("- filled by: "
        ++ prettyPrintLocator ((((mapGet hoistIdentMap node.name).getD []).getD 0 ""))
        ++ " at " ++ reasonRoot)
    else none
  let step2 : Bool × Option String :=
    if isHoistable then
      let hoistedDep := mapGet hoistedDependencies node.name
      let isNameAvailable : Bool :=
        match hoistedDep with
        | none => true
        | some hid => decide ((getN st hid).ident = node.ident)
      let reason :=
        if outputReason && !isNameAvailable then
          some ("- filled by: " ++ prettyPrintLocator (getN st (hoistedDep.getD 0)).locator
            ++ " at " ++ reasonRoot)
        else reason
      if isNameAvailable then
        gnhiShadowLoop st node outputReason ((nodePath.drop 1).dropLast) (isNameAvailable, reason)
      else (isNameAvailable, reason)
    else (isHoistable, reason)
  let isHoistable := step2.1
  let reason := step2.2
  let peerScan : PeerScanState :=
    if isHoistable then
      let parentsDesc : List (Nat × Bool) :=
        match (nodePath.drop 1).reverse with
        | [] => []
        | p :: rest => (p, true) :: rest.map (fun q => (q, false))
      parentsDesc.foldl (gnhiParentStep st outputReason reasonRoot)
        { checkList := node.peerNames, dependsOn := some [], satisfied := true
          reason := reason, broke := false }
    else
      { checkList := node.peerNames, dependsOn := some [], satisfied := true
        reason := reason, broke := false }
  let isHoistable := isHoistable && peerScan.satisfied
  match peerScan.dependsOn with
  | some l =>
    if l.length > 0 then HoistInfo.depends l
    else if isHoistable then HoistInfo.yes else HoistInfo.no peerScan.reason
  | none => if isHoistable then HoistInfo.yes else HoistInfo.no peerScan.reason

/-! ### `selfCheck` -/

/-- Argument selector for `checkNode` of `selfCheck`. -/
inductive ScTask where
  | node (nodeId : Nat) (parentDeps : List (String × Nat)) (parents : List Nat)
  | list (entries : List (String × Nat)) (peers : List String)
      (dependencies : List (String × Nat)) (parents : List Nat)

/-- `checkNode` of `selfCheck`; `parents` is the current path (the
`parents.add`/`parents.delete` bracket), the state is `(seenNodes, log)`. -/
def scGo (st : WStore) :
    Nat → ScTask → List Nat × List String → Option (List Nat × List String)
  | 0, _, _ => none
  | fuel + 1, ScTask.node nodeId parentDeps parents, (seen, log) =>
    if setHas seen nodeId then some (seen, log)
    else
      let seen := setAdd seen nodeId
      if setHas parents nodeId then some (seen, log)
      else
        let node := getN st nodeId
        let dependencies := node.dependencies.foldl (fun m e =>
          let dep := getN st e.2
          if setHas node.peerNames dep.name then m else mapSet m dep.name e.2) parentDeps
        let pathStr := String.intercalate "→"
          ((parents ++ [nodeId]).map (fun i => prettyPrintLocator (getN st i).locator))
        let log := node.originalDependencies.foldl (fun log e =>
          let origDep := getN st e.2
          let dep := mapGet dependencies origDep.name
          if setHas node.peerNames origDep.name then
            let parentDep := mapGet parentDeps origDep.name
            if parentDep ≠ dep then
              log ++ [pathStr ++ " - broken peer promise: expected "
                ++ ((dep.map (fun d => (getN st d).locator)).getD "undefined")
                ++ " but found "
                ++ ((parentDep.map (fun d => (getN st d).locator)).getD "undefined")]
            else log
          else
            match dep with
            | none => log ++ [pathStr ++ " - broken require promise: no required dependency "
                ++ origDep.locator ++ " found"]
            | some d =>
              if (getN st d).ident ≠ origDep.ident then
                log ++ [pathStr ++ " - broken require promise for " ++ origDep.name
                  ++ ": expected " ++ origDep.ident ++ ", but found: " ++ (getN st d).ident]
              else log) log
        scGo st fuel (ScTask.list node.dependencies node.peerNames dependencies
          (parents ++ [nodeId])) (seen, log)
  | _ + 1, ScTask.list [] _ _ _, acc => some acc
  | fuel + 1, ScTask.list (e :: rest) peers dependencies parents, acc =>
    if setHas peers (getN st e.2).name then
      scGo st fuel (ScTask.list rest peers dependencies parents) acc
    else do
      let acc ← scGo st fuel (ScTask.node e.2 dependencies parents) acc
      scGo st fuel (ScTask.list rest peers dependencies parents) acc

/-- `selfCheck`: the newline-joined log of broken require/peer promises
(empty string when the tree is consistent). -/
def selfCheck (st : WStore) (treeId : Nat) (fuel : Nat) : Option String := do
  let (_, log) ← scGo st fuel (ScTask.node treeId (getN st treeId).dependencies []) ([], [])
  some (String.intercalate "\n" log)

/-! ### `dumpDepTree` (diagnostics; part of thrown error messages) -/

def MAX_NODES_TO_DUMP : Nat := 50000

/-- Argument selector for `dumpPackage` of `dumpDepTree`. -/
inductive DdpTask where
  | node (pkgId : Nat) (parents : List Nat) (prefixStr : String)
  | list (pkgId : Nat) (parents : List Nat) (prefixStr : String)
      (entries : List (String × Nat)) (idx : Nat) (total : Nat)

/-- `dumpPackage`; the state is the accumulated output string together with
the mutable `nodeCount` (a `.node` task appends its subtree rendering to the
incoming string). -/
def ddpGo (st : WStore) : Nat → DdpTask → String × Nat → Option (String × Nat)
  | 0, _, _ => none
  | fuel + 1, DdpTask.node pkgId parents prefixStr, (str, nodeCount) =>
    if nodeCount > MAX_NODES_TO_DUMP || setHas parents pkgId then some (str, nodeCount)
    else
      let nodeCount := nodeCount + 1
      let pkg := getN st pkgId
      let deps := pkg.dependencies
      ddpGo st fuel (DdpTask.list pkgId (parents ++ [pkgId]) prefixStr deps 0 deps.length)
        (str, nodeCount)
  | _ + 1, DdpTask.list _ _ _ [] _ _, acc => some acc
  | fuel + 1, DdpTask.list pkgId parents prefixStr (e :: rest) idx total, (str, nodeCount) =>
    let pkg := getN st pkgId
    let dep := getN st e.2
    if setHas pkg.peerNames dep.name then
      ddpGo st fuel (DdpTask.list pkgId parents prefixStr rest (idx + 1) total) (str, nodeCount)
    else
      let reasonStr :=
        match mapGet pkg.reasons dep.name with
        | some (some r) => if r = "" then "" else " " ++ r
        | _ => ""
      let identName := getIdentName dep.locator
      let line := prefixStr ++ (if idx < total - 1 then "├─" else "└─")
        ++ (if setHas parents e.2 then ">" else "")
        ++ (if decide (identName ≠ dep.name) then "a:" ++ dep.name ++ ":" else "")
        ++ prettyPrintLocator dep.locator ++ reasonStr ++ "\n"
      match ddpGo st fuel (DdpTask.node e.2 parents
          (prefixStr ++ (if idx < total - 1 then "│ " else "  "))) (str ++ line, nodeCount) with
      | none => none
      | some acc =>
        ddpGo st fuel (DdpTask.list pkgId parents prefixStr rest (idx + 1) total) acc

/-- `dumpDepTree`. -/
def dumpDepTree (st : WStore) (treeId : Nat) (fuel : Nat) : Option String := do
  let (treeDump, nodeCount) ← ddpGo st fuel (DdpTask.node treeId [] "") ("", 0)
  some (treeDump ++
    (if nodeCount > MAX_NODES_TO_DUMP then "\nTree is too large, part of the tree has been dunped\n"
     else ""))

/-! ### `hoistGraph` -/

/-- The arguments of `hoistGraph` that stay fixed throughout one call. -/
structure HGCtx where
  treeId : Nat
  rootId : Nat
  rootNodePath : List String
  hoistedDependencies : List (String × Nat)
  hoistIdents : List (String × String)
  hoistIdentMap : List (String × List String)
  options : InternalHoistOptions
deriving Repr, Inhabited

/-- The mutable state threaded through `hoistGraph`: the work store, the
`seenNodes` set, and the captured `nextNewNodes` set. -/
structure HGState where
  st : WStore
  seenNodes : List Nat
  nextNewNodes : List Nat
deriving Repr, Inhabited

/-- The first loop of `hoistNodeDependencies`: classify every sorted
regular dependency and build the reverse `dependantTree`
(`name of a DEPENDS target → set of names depending on it`). -/
def hgCollectInfos (ctx : HGCtx) (st : WStore) (nodePath : List Nat) (parentId : Nat)
    (sortedDeps : List Nat) : List (Nat × HoistInfo) × List (String × List String) :=
  sortedDeps.foldl (fun acc subDepId =>
    let infos := acc.1
    let dependantTree := acc.2
    let info := getNodeHoistInfo st ctx.rootNodePath (nodePath ++ [parentId]) subDepId
      ctx.hoistedDependencies ctx.hoistIdents ctx.hoistIdentMap
      (decide (ctx.options.debugLevel ≥ 2))
    let infos := mapSet infos subDepId info
    let dependantTree :=
      match info with
      | HoistInfo.depends dependsOn =>
        dependsOn.foldl (fun dt depId =>
          let nm := (getN st depId).name
          mapSet dt nm (setAdd ((mapGet dt nm).getD []) ((getN st subDepId).name))) dependantTree
      | _ => dependantTree
    (infos, dependantTree)) ([], [])

/-- Argument selector for `addUnhoistableNode`. -/
inductive AunTask where
  | node (nodeId : Nat)
  | list (names : List String)

/-- `addUnhoistableNode`: transitively marks the dependants of a NO node,
replacing their stored `HoistInfo` with the original NO cause. -/
def aunGo (st : WStore) (dependantTree : List (String × List String))
    (parentDeps : List (String × Nat)) (info : HoistInfo) :
    Nat → AunTask → List Nat × List (Nat × HoistInfo) →
    Option (List Nat × List (Nat × HoistInfo))
  | 0, _, _ => none
  | fuel + 1, AunTask.node nodeId, (unh, infos) =>
    if setHas unh nodeId then some (unh, infos)
    else
      let unh := setAdd unh nodeId
      let infos := mapSet infos nodeId info
      aunGo st dependantTree parentDeps info fuel
        (AunTask.list ((mapGet dependantTree (getN st nodeId).name).getD [])) (unh, infos)
  | _ + 1, AunTask.list [], acc => some acc
  | fuel + 1, AunTask.list (dependantName :: rest), acc => do
    let acc ←
      match mapGet parentDeps dependantName with
      | some depId => aunGo st dependantTree parentDeps info fuel (AunTask.node depId) acc
      | none => some acc
      -- (the source dereferences `parentNode.dependencies.get(dependantName)!`;
      -- the name always resolves there)
    aunGo st dependantTree parentDeps info fuel (AunTask.list rest) acc

/-- The `for (const [node, hoistInfo] of hoistInfos)` seeding loop: every
entry whose live value is NO is fed to `addUnhoistableNode`. -/
def hgMarkNoLoop (st : WStore) (dependantTree : List (String × List String))
    (parentDeps : List (String × Nat)) :
    Nat → List Nat → List Nat × List (Nat × HoistInfo) →
    Option (List Nat × List (Nat × HoistInfo))
  | _, [], acc => some acc
  | 0, _ :: _, _ => none
  | fuel + 1, k :: rest, (unh, infos) => do
    let acc ←
      match mapGet infos k with
      | some (HoistInfo.no r) =>
        aunGo st dependantTree parentDeps (HoistInfo.no r) fuel (AunTask.node k) (unh, infos)
      | _ => some (unh, infos)
    hgMarkNoLoop st dependantTree parentDeps fuel rest acc

/-- The `for (const node of hoistInfos.keys())` hoisting loop: move every
node not marked unhoistable from the parent to the hoist root (or merge its
references into the root's existing copy of the name). -/
def hgHoistLoop (ctx : HGCtx) (parentId : Nat) (unh : List Nat) :
    List Nat → WStore × List Nat → WStore × List Nat
  | [], acc => acc
  | nodeId :: rest, (st, newNodes) =>
    if setHas unh nodeId then hgHoistLoop ctx parentId unh rest (st, newNodes)
    else
      let nodeName := (getN st nodeId).name
      let parent := getN st parentId
      let st := setN st parentId
        { parent with
          dependencies := mapDelete parent.dependencies nodeName
          hoistedDependencies := mapSet parent.hoistedDependencies nodeName nodeId
          reasons := mapDelete parent.reasons nodeName }
      let node := getN st nodeId
      let rootNode := getN st ctx.rootId
      match mapGet rootNode.dependencies node.name with
      | none =>
        if decide (rootNode.ident ≠ node.ident) then
          let st := setN st ctx.rootId
            { rootNode with dependencies := mapSet rootNode.dependencies node.name nodeId }
          hgHoistLoop ctx parentId unh rest (st, setAdd newNodes nodeId)
        else hgHoistLoop ctx parentId unh rest (st, newNodes)
      | some hid =>
        let hoistedNode := getN st hid
        let st := setN st hid
          { hoistedNode with references := node.references.foldl setAdd hoistedNode.references }
        hgHoistLoop ctx parentId unh rest (st, newNodes)

/-- Argument selector for the recursions of `hoistGraph`: `.deps` is
`hoistNodeDependencies`, `.children` its trailing descend-into-unhoistable
loop, `.newNodes` the `for (const dep of newNodes)` loop and `.doLoop` the
`do … while (nextNewNodes.size > 0)` driver. -/
inductive HGTask where
  | deps (nodePath : List Nat) (locatorPath : List String) (parentId : Nat)
  | children (nodePath : List Nat) (locatorPath : List String) (parentId : Nat)
      (rest : List Nat) (unh : List Nat) (infos : List (Nat × HoistInfo))
  | newNodes (rest : List Nat)
  | doLoop

/-- The recursive core of `hoistGraph`. -/
def hgGo (ctx : HGCtx) : Nat → HGTask → HGState → Option (Except String HGState)
  | 0, _, _ => none
  | fuel + 1, HGTask.deps nodePath locatorPath parentId, state =>
    if setHas state.seenNodes parentId then some (.ok state)
    else
      match getSortedRegularDependencies state.st parentId fuel with
      | none => none
      | some sortedDeps =>
        let infosDt := hgCollectInfos ctx state.st nodePath parentId sortedDeps
        let parentDeps := (getN state.st parentId).dependencies
        match hgMarkNoLoop state.st infosDt.2 parentDeps fuel (infosDt.1.map Prod.fst)
            ([], infosDt.1) with
        | none => none
        | some (unhoistableNodes, hoistInfos) =>
          let hoisted := hgHoistLoop ctx parentId unhoistableNodes (hoistInfos.map Prod.fst)
            (state.st, state.nextNewNodes)
          let state := { state with st := hoisted.1, nextNewNodes := hoisted.2 }
          let checkStep : Option (Except String Unit) :=
            if ctx.options.check then
              match selfCheck state.st ctx.treeId fuel with
              | none => none
              | some checkLog =>
                if checkLog = "" then some (.ok ())
                else
                  match dumpDepTree state.st ctx.treeId fuel with
                  | none => none
                  | some dump =>
                    some (.error (checkLog ++ ", after hoisting dependencies of "
                      ++ String.intercalate "→" (((ctx.rootId :: nodePath) ++ [parentId]).map
                          (fun i => prettyPrintLocator (getN state.st i).locator))
                      ++ ":\n" ++ dump))
            else some (.ok ())
          match checkStep with
          | none => none
          | some (.error e) => some (.error e)
          | some (.ok _) =>
            match getSortedRegularDependencies state.st parentId fuel with
            | none => none
            | some children =>
              hgGo ctx fuel (HGTask.children nodePath locatorPath parentId children
                unhoistableNodes hoistInfos) state
  | _ + 1, HGTask.children _ _ _ [] _ _, state => some (.ok state)
  | fuel + 1, HGTask.children nodePath locatorPath parentId (nodeId :: rest) unh infos, state =>
    -- descend (after decoupling) into every unhoistable child whose
    -- locator is not already on the locator path
    if setHas unh nodeId && !(setHas locatorPath (getN state.st nodeId).locator) then
      let state :=
        match mapGet infos nodeId with
        | some (HoistInfo.no r) =>
          let parent := getN state.st parentId
          { state with st := (setN state.st parentId
              { parent with reasons := mapSet parent.reasons (getN state.st nodeId).name r }) }
        | _ => state
      let state := { state with seenNodes := setAdd state.seenNodes parentId }
      let dec := decoupleGraphNode state.st parentId nodeId
      let state := { state with st := dec.1 }
      match hgGo ctx fuel (HGTask.deps (nodePath ++ [parentId])
          (locatorPath ++ [(getN state.st parentId).locator]) dec.2) state with
      | none => none
      | some (.error e) => some (.error e)
      | some (.ok state) =>
        let state := { state with seenNodes := setDelete state.seenNodes parentId }
        hgGo ctx fuel (HGTask.children nodePath locatorPath parentId rest unh infos) state
    else hgGo ctx fuel (HGTask.children nodePath locatorPath parentId rest unh infos) state
  | _ + 1, HGTask.newNodes [], state => some (.ok state)
  | fuel + 1, HGTask.newNodes (depId :: rest), state =>
    -- the `for (const dep of newNodes)` loop
    if decide ((getN state.st depId).locator = (getN state.st ctx.rootId).locator) then
      hgGo ctx fuel (HGTask.newNodes rest) state
    else
      let dec := decoupleGraphNode state.st ctx.rootId depId
      let state := { state with st := dec.1 }
      match hgGo ctx fuel (HGTask.deps [ctx.rootId] [(getN state.st ctx.rootId).locator]
          dec.2) state with
      | none => none
      | some (.error e) => some (.error e)
      | some (.ok state) => hgGo ctx fuel (HGTask.newNodes rest) state
  | fuel + 1, HGTask.doLoop, state =>
    -- the `do … while (nextNewNodes.size > 0)` driver
    let newNodes := state.nextNewNodes
    let state := { state with nextNewNodes := [] }
    match hgGo ctx fuel (HGTask.newNodes newNodes) state with
    | none => none
    | some (.error e) => some (.error e)
    | some (.ok state) =>
      if state.nextNewNodes.length > 0 then hgGo ctx fuel HGTask.doLoop state
      else some (.ok state)

/-- `hoistGraph`. -/
def hoistGraph (st : WStore) (treeId rootId : Nat) (rootNodePath : List String)
    (hoistedDependencies : List (String × Nat)) (hoistIdents : List (String × String))
    (hoistIdentMap : List (String × List String)) (options : InternalHoistOptions)
    (fuel : Nat) : Option (Except String WStore) := do
  let ctx : HGCtx :=
    { treeId := treeId, rootId := rootId, rootNodePath := rootNodePath
      hoistedDependencies := hoistedDependencies, hoistIdents := hoistIdents
      hoistIdentMap := hoistIdentMap, options := options }
  match getSortedRegularDependencies st rootId fuel with
  | none => none
  | some sorted =>
    match hgGo ctx fuel HGTask.doLoop { st := st, seenNodes := [], nextNewNodes := sorted } with
    | none => none
    | some (.error e) => some (.error e)
    | some (.ok state) => some (.ok state.st)

/-! ### `hoistTo` -/

/-- The `do { hoistGraph(...); … } while (wasStateChanged)` loop of
`hoistTo`: after each `hoistGraph` pass, every `identMap` entry with more
than one candidate whose name the root still does not host is shifted to
its next candidate. -/
def htShiftLoop (treeId rootId : Nat) (rootNodePath : List String)
    (hoistedDependencies : List (String × Nat)) (options : InternalHoistOptions) :
    Nat → WStore → List (String × String) → List (String × List String) →
    Option (Except String WStore)
  | 0, _, _, _ => none
  | fuel + 1, st, hoistIdents, hoistIdentMap =>
    match hoistGraph st treeId rootId rootNodePath hoistedDependencies hoistIdents
        hoistIdentMap options fuel with
    | none => none
    | some (.error e) => some (.error e)
    | some (.ok st) =>
      let rootDeps := (getN st rootId).dependencies
      let step := hoistIdentMap.foldl
        (fun (acc : List (String × List String) × List (String × String) × Bool) e =>
          let idents := e.2
          if idents.length > 1 && !(mapHas rootDeps e.1) then
            let idents := idents.tail
            (mapSet acc.1 e.1 idents,
             mapSet (mapDelete acc.2.1 e.1) e.1 (idents.getD 0 ""),
             true)
          else acc) (hoistIdentMap, hoistIdents, false)
      if step.2.2 then htShiftLoop treeId rootId rootNodePath hoistedDependencies options
        fuel st step.2.1 step.1
      else some (.ok st)

/-- Argument selector for `hoistTo`: `.root` is a `hoistTo` invocation,
`.children` its trailing recursion into the root's current non-peer
children. -/
inductive HTTask where
  | root (rootId : Nat) (rootNodePath : List String) (seenNodes : List Nat)
  | children (rootId : Nat) (rootNodePath : List String) (processed : List String)

/-- `hoistTo`.  The recursive call in the source omits the `seenNodes`
argument, so every recursive invocation starts from a fresh empty set; the
embedding reproduces this.  The `.children` case iterates the live
`rootNode.dependencies` map tracking the names already visited; the
`rootNodePath` add/delete bracket becomes passing the extended path only to
the recursive call. -/
def htGo (treeId : Nat) (options : InternalHoistOptions) :
    Nat → HTTask → WStore → Option (Except String WStore)
  | 0, _, _ => none
  | fuel + 1, HTTask.root rootId rootNodePath seenNodes, st =>
    if setHas seenNodes rootId then some (.ok st)
    else
      match buildPopularityMap st rootId fuel with
      | none => none
      | some pm =>
        let hoistIdentMap := getHoistIdentMap st rootId pm
        let hoistIdents := hoistIdentMap.map (fun e => (e.1, e.2.getD 0 ""))
        match (if rootId = treeId then some [] else getHoistedDependencies st rootId fuel) with
        | none => none
        | some hoistedDependencies =>
          match htShiftLoop treeId rootId rootNodePath hoistedDependencies options
              fuel st hoistIdents hoistIdentMap with
          | none => none
          | some (.error e) => some (.error e)
          | some (.ok st) => htGo treeId options fuel (HTTask.children rootId rootNodePath []) st
  | fuel + 1, HTTask.children rootId rootNodePath processed, st =>
    let rootNode := getN st rootId
    match rootNode.dependencies.find? (fun e => !(processed.contains e.1)) with
    | none => some (.ok st)
    | some e =>
      let processed := processed ++ [e.1]
      let dep := getN st e.2
      if !(setHas rootNode.peerNames dep.name) && !(setHas rootNodePath dep.locator) then
        match htGo treeId options fuel (HTTask.root e.2 (setAdd rootNodePath dep.locator) []) st with
        | none => none
        | some (.error er) => some (.error er)
        | some (.ok st) =>
          htGo treeId options fuel (HTTask.children rootId rootNodePath processed) st
      else htGo treeId options fuel (HTTask.children rootId rootNodePath processed) st

/-- `hoistTo`. -/
def hoistTo (fuel : Nat) (st : WStore) (treeId rootId : Nat) (rootNodePath : List String)
    (options : InternalHoistOptions) (seenNodes : List Nat) : Option (Except String WStore) :=
  htGo treeId options fuel (HTTask.root rootId rootNodePath seenNodes) st

/-! ### `shrinkTree` -/

def allocR (s : RStore) (n : HoisterResultNode) : RStore × Nat := (s ++ [n], s.length)

/-- Argument selector for `addNode` of `shrinkTree`. -/
inductive ShrinkTask where
  | node (nodeId parentWorkId parentResultId : Nat)
  | list (entries : List (String × Nat)) (peers : List String)
      (parentWorkId parentResultId : Nat)

/-- `addNode` of `shrinkTree`: `seen` is the current work-node path
(seeded with the work root); a work node equal to its own parent reuses the
parent's output node, otherwise a fresh output node is allocated; seen
nodes are attached without expansion. -/
def stGo (wst : WStore) :
    Nat → ShrinkTask → RStore × List Nat → Option (RStore × List Nat)
  | 0, _, _ => none
  | fuel + 1, ShrinkTask.node nodeId parentWorkId parentResultId, (rst, seen) =>
    let isSeen := setHas seen nodeId
    let node := getN wst nodeId
    let alloc : RStore × Nat :=
      if parentWorkId = nodeId then (rst, parentResultId)
      else
        allocR rst
          { name := node.name
            identName := getIdentName node.locator
            references := node.references
            dependencies := [] }
    let rst := alloc.1
    let resultId := alloc.2
    let parentRes := getR rst parentResultId
    let rst := setR rst parentResultId
      { parentRes with dependencies := setAdd parentRes.dependencies resultId }
    if isSeen then some (rst, seen)
    else
      let seen := setAdd seen nodeId
      match stGo wst fuel (ShrinkTask.list node.dependencies node.peerNames nodeId resultId)
          (rst, seen) with
      | none => none
      | some (rst, seen) => some (rst, setDelete seen nodeId)
  | _ + 1, ShrinkTask.list [] _ _ _, acc => some acc
  | fuel + 1, ShrinkTask.list (e :: rest) peers parentWorkId parentResultId, acc =>
    if setHas peers (getN wst e.2).name then
      stGo wst fuel (ShrinkTask.list rest peers parentWorkId parentResultId) acc
    else do
      let acc ← stGo wst fuel (ShrinkTask.node e.2 parentWorkId parentResultId) acc
      stGo wst fuel (ShrinkTask.list rest peers parentWorkId parentResultId) acc

/-- `shrinkTree`: the output root is id `0` of the returned store.  (The
top-level loop of the source iterates all of the root's dependencies
without a peer filter; the embedding follows it.) -/
def shrinkTree (wst : WStore) (treeId : Nat) (fuel : Nat) : Option RStore := do
  let tree := getN wst treeId
  let (rst, rootRid) := allocR []
    { name := tree.name
      identName := getIdentName tree.locator
      references := tree.references
      dependencies := [] }
  let loop := tree.dependencies.foldl
    (fun (acc : Option (RStore × List Nat)) e => do
      let acc ← acc
      stGo wst fuel (ShrinkTask.node e.2 treeId rootRid) acc) (some (rst, [treeId]))
  match loop with
  | none => none
  | some (rst, _) =>
    let _ := rootRid
    some rst

/-! ### `hoist` -/

/-- Reads a nonempty all-digit character list as a decimal number. -/
def decDigitsToNat : List Char → Option Nat
  | [] => none
  | cs => cs.foldl (fun acc c =>
      match acc with
      | none => none
      | some n => if c.isDigit then some (n * 10 + (c.toNat - 48)) else none) (some 0)

/-- `Number(s)` for the optional-sign decimal strings the debug variable
carries (other strings denote NaN, which does not arise here and is mapped
to `0`). -/
def jsNumber (s : String) : Int :=
  let t := ((s.data.dropWhile (fun c => c.isWhitespace)).reverse.dropWhile
    (fun c => c.isWhitespace)).reverse
  match t with
  | '-' :: rest => match decDigitsToNat rest with | some n => -(n : Int) | none => 0
  | '+' :: rest => match decDigitsToNat rest with | some n => (n : Int) | none => 0
  | _ => match decDigitsToNat t with | some n => (n : Int) | none => 0

/-- The first line of `hoist`:
`opts.debugLevel || Number(process.env.NM_DEBUG_LEVEL || -1)`.
JavaScript `||` treats the number `0` (and an unset or empty environment
variable) as falsy. -/
def hoistDebugLevel (optsDebugLevel : Option Int) (env : Option String) : Int :=
  let envPart : Int :=
    match env with
    | none => -1
    | some s => if s = "" then -1 else jsNumber s
  match optsDebugLevel with
  | some d => if d = 0 then envPart else d
  | none => envPart

/-- `hoist`: clone the input tree, hoist into the copy, optionally
self-check (a failing check throws, embedded as `Except.error`), and shrink
to the output store (whose root is id `0`).  `env` is the value of the
`NM_DEBUG_LEVEL` environment variable. -/
def hoist (forest : InForest) (rootId : Nat) (opts : HoistOptions) (env : Option String)
    (fuel : Nat) : Option (Except String RStore) := do
  let debugLevel := hoistDebugLevel opts.debugLevel env
  let check := opts.check.getD false || decide (debugLevel ≥ 9)
  let options : InternalHoistOptions := { check := check, debugLevel := debugLevel }
  match cloneTree forest rootId fuel with
  | none => none
  | some (st, treeCopyId) =>
    match hoistTo fuel st treeCopyId treeCopyId [(getN st treeCopyId).locator] options [] with
    | none => none
    | some (.error e) => some (.error e)
    | some (.ok st) =>
      let checkStep : Option (Except String Unit) :=
        if debugLevel ≥ 1 then
          match selfCheck st treeCopyId fuel with
          | none => none
          | some checkLog =>
            if checkLog ≠ "" then
              match dumpDepTree st treeCopyId fuel with
              | none => none
              | some dump =>
                some (.error (checkLog ++ ", after hoisting finished:\n" ++ dump))
            else some (.ok ())
        else some (.ok ())
      match checkStep with
      | none => none
      | some (.error e) => some (.error e)
      | some (.ok _) =>
        match shrinkTree st treeCopyId fuel with
        | none => none
        | some rst => some (.ok rst)

/-! ## Lemmas about the map and set primitives -/

theorem mapGet_mapSet_self {K V : Type} [DecidableEq K] (m : List (K × V)) (k : K) (v : V) :
    mapGet (mapSet m k v) k = some v := by
  induction m with
  | nil => simp [mapSet, mapGet]
  | cons e rest ih =>
    by_cases h : e.1 = k
    · simp [mapSet, mapGet, h]
    · simp [mapSet, mapGet, h, ih]

theorem mapGet_mapSet_ne {K V : Type} [DecidableEq K] (m : List (K × V)) (k k' : K) (v : V)
    (h : k ≠ k') : mapGet (mapSet m k v) k' = mapGet m k' := by
  induction m with
  | nil => simp [mapSet, mapGet, h]
  | cons e rest ih =>
    by_cases he : e.1 = k
    · simp [mapSet, mapGet, he, h, Ne.symm h]
    · by_cases he' : e.1 = k'
      · simp [mapSet, mapGet, he, he', Ne.symm h]
      · simp [mapSet, mapGet, he, he', ih]

/-! ## Lemmas about `getHoistIdentMap` -/

/-- The pinning fold leaves names it never writes untouched. -/
theorem ghimDepFold_preserve (st : WStore) (rootNode : WorkNode)
    (l : List (String × Nat)) (m : List (String × List String)) (n : String)
    (h : ∀ e ∈ l, (getN st e.2).name ≠ n) :
    mapGet (l.foldl (ghimDepStep st rootNode) m) n = mapGet m n := by
  induction l generalizing m with
  | nil => rfl
  | cons e rest ih =>
    have hrest : ∀ e' ∈ rest, (getN st e'.2).name ≠ n := fun e' he' => h e' (by simp [he'])
    rw [List.foldl_cons, ih _ hrest]
    unfold ghimDepStep
    by_cases hp : setHas rootNode.peerNames (getN st e.2).name
    · simp [hp]
    · simp [hp, mapGet_mapSet_ne _ _ _ _ (h e (by simp))]

/-- After the pinning fold, each direct non-peer dependency's name maps to
exactly its own singleton ident list (given that no two dependency values
share a name, as is the case for every store built by this algorithm). -/
theorem ghimDepFold_mem (st : WStore) (rootNode : WorkNode)
    (l : List (String × Nat)) (m : List (String × List String))
    (hnodup : (l.map (fun e => (getN st e.2).name)).Nodup)
    (e : String × Nat) (he : e ∈ l)
    (hpeer : setHas rootNode.peerNames (getN st e.2).name = false) :
    mapGet (l.foldl (ghimDepStep st rootNode) m) (getN st e.2).name
      = some [(getN st e.2).ident] := by
  induction l generalizing m with
  | nil => cases he
  | cons e0 rest ih =>
    rcases List.mem_cons.mp he with rfl | hmem
    · have hrest : ∀ e' ∈ rest, (getN st e'.2).name ≠ (getN st e.2).name := by
        intro e' he' hEq
        have := (List.nodup_cons.mp hnodup).1
        exact this (by simpa [hEq] using List.mem_map_of_mem (fun x => (getN st x.2).name) he')
      rw [List.foldl_cons, ghimDepFold_preserve st rootNode rest _ _ hrest]
      unfold ghimDepStep
      simp [hpeer, mapGet_mapSet_self]
    · rw [List.foldl_cons]
      exact ih _ (List.nodup_cons.mp hnodup).2 hmem

/-- A single popularity-walk step preserves the head of every candidate
list: it only ever appends. -/
theorem ghimPopStep_head (rootNode : WorkNode) (m : List (String × List String))
    (key : String) (n : String) (id0 : String) (l0 : List String)
    (h : mapGet m n = some (id0 :: l0)) :
    ∃ l, mapGet (ghimPopStep rootNode m key) n = some (id0 :: l) := by
  unfold ghimPopStep
  set nm := jsSubstring key 0 (jsIndexOfFrom key "@" 1) with hnm
  set idt := jsSubstringFrom key ((nm.length : Int) + 1) with hidt
  by_cases hp : setHas rootNode.peerNames nm
  · exact ⟨l0, by simpa [hp] using h⟩
  · simp only [hp, Bool.false_eq_true, if_false]
    by_cases hn : nm = n
    · subst hn
      rw [h]
      by_cases hin : setHas (id0 :: l0) idt
      · exact ⟨l0, by simp [hin, h]⟩
      · exact ⟨l0 ++ [idt], by simp [hin, mapGet_mapSet_self]⟩
    · cases hm : mapGet m nm with
      | none => exact ⟨l0, by simp [hm, mapGet_mapSet_ne _ _ _ _ hn, h]⟩
      | some idents =>
        by_cases hin : setHas idents idt
        · exact ⟨l0, by simp [hm, hin, h]⟩
        · exact ⟨l0, by simp [hm, hin, mapGet_mapSet_ne _ _ _ _ hn, h]⟩

/-- The whole popularity walk preserves candidate-list heads. -/
theorem ghimPopFold_head (rootNode : WorkNode) (keys : List String)
    (m : List (String × List String)) (n : String) (id0 : String) (l0 : List String)
    (h : mapGet m n = some (id0 :: l0)) :
    ∃ l, mapGet (keys.foldl (ghimPopStep rootNode) m) n = some (id0 :: l) := by
  induction keys generalizing m l0 with
  | nil => exact ⟨l0, h⟩
  | cons key rest ih =>
    obtain ⟨l1, h1⟩ := ghimPopStep_head rootNode m key n id0 l0 h
    exact ih _ l1 h1

/-- Taking heads (as `hoistTo` does to build `hoistIdents`) introduces no
new keys. -/
theorem mapGet_map_snd_none {K V W : Type} [DecidableEq K] (m : List (K × V))
    (f : K × V → W) (k : K) (h : mapGet m k = none) :
    mapGet (m.map (fun e => (e.1, f e))) k = none := by
  induction m with
  | nil => rfl
  | cons e rest ih =>
    by_cases hk : e.1 = k
    · simp [mapGet, hk] at h
    · simp only [mapGet, hk, if_false] at h
      simp [mapGet, hk, ih h]

/-- The pinning fold never writes a name among the root's peer names. -/
theorem ghimDepFold_peer_none (st : WStore) (rootNode : WorkNode)
    (l : List (String × Nat)) (m : List (String × List String)) (p : String)
    (hpeer : setHas rootNode.peerNames p = true) (h : mapGet m p = none) :
    mapGet (l.foldl (ghimDepStep st rootNode) m) p = none := by
  induction l generalizing m with
  | nil => exact h
  | cons e rest ih =>
    rw [List.foldl_cons]
    apply ih
    unfold ghimDepStep
    by_cases hp : setHas rootNode.peerNames (getN st e.2).name = true
    · simpa [hp] using h
    · have hne : (getN st e.2).name ≠ p := by
        intro hEq
        rw [hEq] at hp
        exact hp hpeer
      simp [hp, mapGet_mapSet_ne _ _ _ _ hne, h]

/-- The popularity walk never writes a name among the root's peer names. -/
theorem ghimPopFold_peer_none (rootNode : WorkNode) (keys : List String)
    (m : List (String × List String)) (p : String)
    (hpeer : setHas rootNode.peerNames p = true) (h : mapGet m p = none) :
    mapGet (keys.foldl (ghimPopStep rootNode) m) p = none := by
  induction keys generalizing m with
  | nil => exact h
  | cons key rest ih =>
    rw [List.foldl_cons]
    apply ih
    unfold ghimPopStep
    by_cases hp : setHas rootNode.peerNames (jsSubstring key 0 (jsIndexOfFrom key "@" 1)) = true
    · simp [hp, h]
    · have hne : jsSubstring key 0 (jsIndexOfFrom key "@" 1) ≠ p := by
        intro hEq
        rw [hEq] at hp
        exact hp hpeer
      cases hm : mapGet m (jsSubstring key 0 (jsIndexOfFrom key "@" 1)) with
      | none => simp [hp, hm, mapGet_mapSet_ne _ _ _ _ hne, h]
      | some idents =>
        by_cases hin : setHas idents
            (jsSubstringFrom key
              (((jsSubstring key 0 (jsIndexOfFrom key "@" 1)).length : Int) + 1)) = true
        · simp [hp, hm, hin, h]
        · simp [hp, hm, hin, mapGet_mapSet_ne _ _ _ _ hne, h]

/-- A peer name of the root other than the root's own name never gets an
`identMap` entry (the root's own name is seeded unconditionally, which is
why it must be excluded). -/
theorem getHoistIdentMap_peer_none (st : WStore) (rootId : Nat)
    (pm : List (String × List String)) (p : String)
    (hpeer : setHas (getN st rootId).peerNames p = true)
    (hne : ¬ p = (getN st rootId).name) :
    mapGet (getHoistIdentMap st rootId pm) p = none := by
  unfold getHoistIdentMap
  apply ghimPopFold_peer_none _ _ _ _ hpeer
  apply ghimDepFold_peer_none _ _ _ _ _ hpeer
  simp [mapGet, Ne.symm hne]

/-- A candidate whose name has no `hoistIdents` entry is classified NO (the
comparison of the absent hoisted ident with the candidate's ident fails),
with no reason recorded. -/
theorem getNodeHoistInfo_no_ident (st : WStore) (rootNodePath : List String)
    (nodePath : List Nat) (nodeId : Nat) (hoistedDependencies : List (String × Nat))
    (hoistIdents : List (String × String)) (hoistIdentMap : List (String × List String))
    (outputReason : Bool)
    (h : mapGet hoistIdents (getN st nodeId).name = none) :
    getNodeHoistInfo st rootNodePath nodePath nodeId hoistedDependencies hoistIdents
      hoistIdentMap outputReason = HoistInfo.no none := by
  unfold getNodeHoistInfo
  simp [h]

/-! ## Lemmas about `getSortedRegularDependencies` -/

theorem mem_setAdd {α : Type} [DecidableEq α] (l : List α) (a x : α) :
    x ∈ setAdd l a ↔ x ∈ l ∨ x = a := by
  unfold setAdd
  by_cases h : a ∈ l
  · simp only [h, if_true]
    constructor
    · exact fun hx => Or.inl hx
    · rintro (hx | rfl) <;> assumption
  · simp [h]

theorem setAdd_nodup {α : Type} [DecidableEq α] (l : List α) (a : α) (h : l.Nodup) :
    (setAdd l a).Nodup := by
  unfold setAdd
  by_cases ha : a ∈ l
  · simpa [ha]
  · simpa [ha] using List.Nodup.append h (List.nodup_singleton a) (by simpa using ha)

theorem mapGet_of_mem_nodup {K V : Type} [DecidableEq K] (m : List (K × V)) (k : K) (v : V)
    (hmem : (k, v) ∈ m) (hnodup : (m.map Prod.fst).Nodup) : mapGet m k = some v := by
  induction m with
  | nil => cases hmem
  | cons e rest ih =>
    rcases List.mem_cons.mp hmem with rfl | hmem'
    · simp [mapGet]
    · have hk : e.1 ≠ k := by
        intro hEq
        exact (List.nodup_cons.mp hnodup).1
          (by simpa [hEq] using List.mem_map_of_mem Prod.fst hmem')
      simp [mapGet, hk, ih hmem' (List.nodup_cons.mp hnodup).2]

theorem indexOf_append_left {α : Type} [DecidableEq α] (l t : List α) (x : α) (h : x ∈ l) :
    List.indexOf x (l ++ t) = List.indexOf x l := by
  induction l with
  | nil => cases h
  | cons a rest ih =>
    by_cases hx : a = x
    · simp [List.indexOf_cons, hx]
    · rcases List.mem_cons.mp h with rfl | hmem
      · exact absurd rfl hx
      · simp [List.indexOf_cons, hx, ih hmem]

theorem indexOf_append_self {α : Type} [DecidableEq α] (l : List α) (x : α) (h : x ∉ l) :
    List.indexOf x (l ++ [x]) = l.length := by
  induction l with
  | nil => simp
  | cons a rest ih =>
    have hax : a ≠ x := fun hEq => h (by simp [hEq])
    simp [List.indexOf_cons, hax, ih (fun hm => h (by simp [hm]))]

/-- The sibling peer-dependency relation of `getSortedRegularDependencies`
run on `node`: `d` peer-depends (via a peer name that `node` itself does
not treat as a peer) on the sibling that `node.dependencies` supplies for
that name. -/
def sEdge (st : WStore) (node : WorkNode) (d p : Nat) : Prop :=
  ∃ pn, pn ∈ (getN st d).peerNames ∧ setHas node.peerNames pn = false ∧
    mapGet node.dependencies pn = some p

/-- The ordering the claim asserts of a returned list `l`: a returned
dependency whose name some other returned dependency peer-depends on
appears strictly earlier in the list. -/
def peerOrderOK (st : WStore) (l : List Nat) : Prop :=
  ∀ d ∈ l, ∀ p ∈ l, ¬ d = p → (getN st p).name ∈ (getN st d).peerNames →
    List.indexOf p l < List.indexOf d l

/-- The DFS ordering invariant: every accumulated element's sibling peers
are either placed earlier or witness a peer cycle back to it. -/
def accOrdered (st : WStore) (node : WorkNode) (acc : List Nat) : Prop :=
  ∀ d ∈ acc, ∀ p, sEdge st node d p →
    List.indexOf p acc < List.indexOf d acc ∨ Relation.TransGen (sEdge st node) p d

theorem gsrdGo_mono (st : WStore) (node : WorkNode) :
    ∀ (fuel : Nat) (task : GsrdTask) (seen acc seen' acc' : List Nat),
    gsrdGo st node fuel task (seen, acc) = some (seen', acc') →
    (∀ x ∈ seen, x ∈ seen') ∧ (∀ x ∈ acc, x ∈ acc') := by
  intro fuel
  induction fuel with
  | zero => intro task seen acc s' a' h; simp [gsrdGo] at h
  | succ fuel ih =>
    intro task seen acc s' a' h
    cases task with
    | addDep d =>
      by_cases hs : setHas seen d = true
      · simp [gsrdGo, hs] at h
        exact ⟨fun x hx => h.1 ▸ hx, fun x hx => h.2 ▸ hx⟩
      · simp only [gsrdGo, hs, Bool.false_eq_true, if_false] at h
        cases hin : gsrdGo st node fuel (GsrdTask.peers (getN st d).peerNames)
            (setAdd seen d, acc) with
        | none => rw [hin] at h; cases h
        | some p =>
          obtain ⟨s2, a2⟩ := p
          rw [hin] at h
          simp only [Option.some.injEq, Prod.mk.injEq] at h
          obtain ⟨rfl, rfl⟩ := h
          obtain ⟨hms, hma⟩ := ih _ _ _ _ _ hin
          exact ⟨fun x hx => hms x ((mem_setAdd seen d x).mpr (Or.inl hx)),
                 fun x hx => (mem_setAdd a2 d x).mpr (Or.inl (hma x hx))⟩
    | peers names =>
      cases names with
      | nil =>
        simp [gsrdGo] at h
        exact ⟨fun x hx => h.1 ▸ hx, fun x hx => h.2 ▸ hx⟩
      | cons pn rest =>
        by_cases hp : setHas node.peerNames pn = true
        · simp only [gsrdGo, hp, if_true, Option.some_bind] at h
          exact ih _ _ _ _ _ h
        · cases hg : mapGet node.dependencies pn with
          | none =>
            simp only [gsrdGo, hp, hg, Bool.false_eq_true, if_false, Option.some_bind] at h
            exact ih _ _ _ _ _ h
          | some pid =>
            by_cases hd : setHas acc pid = true
            · simp only [gsrdGo, hp, hg, hd, Bool.false_eq_true, if_false, if_true,
                Option.some_bind] at h
              exact ih _ _ _ _ _ h
            · simp only [gsrdGo, hp, hg, hd, Bool.false_eq_true, if_false] at h
              cases hin : gsrdGo st node fuel (GsrdTask.addDep pid) (seen, acc) with
              | none => rw [hin] at h; cases h
              | some mid =>
                obtain ⟨s1, a1⟩ := mid
                rw [hin] at h
                obtain ⟨h1s, h1a⟩ := ih _ _ _ _ _ h
                obtain ⟨h0s, h0a⟩ := ih _ _ _ _ _ hin
                exact ⟨fun x hx => h1s x (h0s x hx), fun x hx => h1a x (h0a x hx)⟩

theorem mapGet_mem {K V : Type} [DecidableEq K] (m : List (K × V)) (k : K) (v : V)
    (h : mapGet m k = some v) : (k, v) ∈ m := by
  induction m with
  | nil => cases h
  | cons e rest ih =>
    by_cases hk : e.1 = k
    · simp only [mapGet, hk, if_true, Option.some.injEq] at h
      subst h
      exact hk ▸ (by simp)
    · simp only [mapGet, hk, if_false] at h
      exact List.mem_cons_of_mem _ (ih h)

/-- Everything the DFS ever adds is a non-peer dependency value of `node`. -/
def goodDep (st : WStore) (node : WorkNode) (x : Nat) : Prop :=
  (∃ e ∈ node.dependencies, e.2 = x) ∧ setHas node.peerNames (getN st x).name = false

/-- `seenDeps` entries that are not in the accumulator were already seen on
entry (elements enter `seenDeps` and leave only into the accumulator). -/
theorem gsrdGo_seen_sub (st : WStore) (node : WorkNode) :
    ∀ (fuel : Nat) (task : GsrdTask) (seen acc seen' acc' : List Nat),
    gsrdGo st node fuel task (seen, acc) = some (seen', acc') →
    ∀ x, x ∈ seen' → x ∉ acc' → x ∈ seen := by
  intro fuel
  induction fuel with
  | zero => intro task seen acc s' a' h; simp [gsrdGo] at h
  | succ fuel ih =>
    intro task seen acc s' a' h x hx hnx
    cases task with
    | addDep d =>
      by_cases hs : setHas seen d = true
      · simp [gsrdGo, hs] at h
        exact h.1 ▸ hx
      · simp only [gsrdGo, hs, Bool.false_eq_true, if_false] at h
        cases hin : gsrdGo st node fuel (GsrdTask.peers (getN st d).peerNames)
            (setAdd seen d, acc) with
        | none => rw [hin] at h; cases h
        | some p =>
          obtain ⟨s2, a2⟩ := p
          rw [hin] at h
          simp only [Option.some.injEq, Prod.mk.injEq] at h
          obtain ⟨rfl, rfl⟩ := h
          have hnx2 : x ∉ a2 := fun hx2 => hnx ((mem_setAdd a2 d x).mpr (Or.inl hx2))
          have := ih _ _ _ _ _ hin x hx hnx2
          rcases (mem_setAdd seen d x).mp this with hx0 | rfl
          · exact hx0
          · exact absurd ((mem_setAdd a2 x x).mpr (Or.inr rfl)) hnx
    | peers names =>
      cases names with
      | nil =>
        simp [gsrdGo] at h
        exact h.1 ▸ hx
      | cons pn rest =>
        by_cases hp : setHas node.peerNames pn = true
        · simp only [gsrdGo, hp, if_true, Option.some_bind] at h
          exact ih _ _ _ _ _ h x hx hnx
        · cases hg : mapGet node.dependencies pn with
          | none =>
            simp only [gsrdGo, hp, hg, Bool.false_eq_true, if_false, Option.some_bind] at h
            exact ih _ _ _ _ _ h x hx hnx
          | some pid =>
            by_cases hd : setHas acc pid = true
            · simp only [gsrdGo, hp, hg, hd, Bool.false_eq_true, if_false, if_true,
                Option.some_bind] at h
              exact ih _ _ _ _ _ h x hx hnx
            · simp only [gsrdGo, hp, hg, hd, Bool.false_eq_true, if_false] at h
              cases hin : gsrdGo st node fuel (GsrdTask.addDep pid) (seen, acc) with
              | none => rw [hin] at h; cases h
              | some mid =>
                obtain ⟨s1, a1⟩ := mid
                rw [hin] at h
                have hna1 : x ∉ a1 := fun hx1 =>
                  hnx ((gsrdGo_mono st node _ _ _ _ _ _ h).2 x hx1)
                exact ih _ _ _ _ _ hin x (ih _ _ _ _ _ h x hx hnx) hna1

/-- After `addDep d` succeeds, `d` is in the accumulator or was seen. -/
theorem gsrdGo_addDep_post (st : WStore) (node : WorkNode)
    (fuel : Nat) (d : Nat) (seen acc seen' acc' : List Nat)
    (h : gsrdGo st node fuel (GsrdTask.addDep d) (seen, acc) = some (seen', acc')) :
    d ∈ acc' ∨ d ∈ seen := by
  cases fuel with
  | zero => simp [gsrdGo] at h
  | succ fuel =>
    by_cases hs : setHas seen d = true
    · exact Or.inr (of_decide_eq_true hs)
    · simp only [gsrdGo, hs, Bool.false_eq_true, if_false] at h
      cases hin : gsrdGo st node fuel (GsrdTask.peers (getN st d).peerNames)
          (setAdd seen d, acc) with
      | none => rw [hin] at h; cases h
      | some p =>
        obtain ⟨s2, a2⟩ := p
        rw [hin] at h
        simp only [Option.some.injEq, Prod.mk.injEq] at h
        exact Or.inl (h.2 ▸ (mem_setAdd a2 d d).mpr (Or.inr rfl))

/-- Everything added by the DFS is a non-peer dependency value. -/
theorem gsrdGo_elems (st : WStore) (node : WorkNode)
    (hkeys : ∀ e ∈ node.dependencies, (getN st e.2).name = e.1) :
    ∀ (fuel : Nat) (task : GsrdTask) (seen acc seen' acc' : List Nat),
    gsrdGo st node fuel task (seen, acc) = some (seen', acc') →
    (∀ d, task = GsrdTask.addDep d → goodDep st node d) →
    ∀ x ∈ acc', x ∈ acc ∨ goodDep st node x := by
  intro fuel
  induction fuel with
  | zero => intro task seen acc s' a' h; simp [gsrdGo] at h
  | succ fuel ih =>
    intro task seen acc s' a' h htask x hx
    cases task with
    | addDep d =>
      by_cases hs : setHas seen d = true
      · simp [gsrdGo, hs] at h
        exact Or.inl (h.2 ▸ hx)
      · simp only [gsrdGo, hs, Bool.false_eq_true, if_false] at h
        cases hin : gsrdGo st node fuel (GsrdTask.peers (getN st d).peerNames)
            (setAdd seen d, acc) with
        | none => rw [hin] at h; cases h
        | some p =>
          obtain ⟨s2, a2⟩ := p
          rw [hin] at h
          simp only [Option.some.injEq, Prod.mk.injEq] at h
          obtain ⟨rfl, rfl⟩ := h
          rcases (mem_setAdd a2 d x).mp hx with hx2 | rfl
          · exact ih _ _ _ _ _ hin (by intro d' hd'; cases hd') x hx2
          · exact Or.inr (htask x rfl)
    | peers names =>
      cases names with
      | nil =>
        simp [gsrdGo] at h
        exact Or.inl (h.2 ▸ hx)
      | cons pn rest =>
        by_cases hp : setHas node.peerNames pn = true
        · simp only [gsrdGo, hp, if_true, Option.some_bind] at h
          exact ih _ _ _ _ _ h (by intro d' hd'; cases hd') x hx
        · cases hg : mapGet node.dependencies pn with
          | none =>
            simp only [gsrdGo, hp, hg, Bool.false_eq_true, if_false, Option.some_bind] at h
            exact ih _ _ _ _ _ h (by intro d' hd'; cases hd') x hx
          | some pid =>
            by_cases hd : setHas acc pid = true
            · simp only [gsrdGo, hp, hg, hd, Bool.false_eq_true, if_false, if_true,
                Option.some_bind] at h
              exact ih _ _ _ _ _ h (by intro d' hd'; cases hd') x hx
            · simp only [gsrdGo, hp, hg, hd, Bool.false_eq_true, if_false] at h
              cases hin : gsrdGo st node fuel (GsrdTask.addDep pid) (seen, acc) with
              | none => rw [hin] at h; cases h
              | some mid =>
                obtain ⟨s1, a1⟩ := mid
                rw [hin] at h
                have hgood : goodDep st node pid := by
                  refine ⟨⟨(pn, pid), mapGet_mem _ _ _ hg, rfl⟩, ?_⟩
                  rw [hkeys (pn, pid) (mapGet_mem _ _ _ hg)]
                  exact Bool.eq_false_iff.mpr hp
                rcases ih _ _ _ _ _ h (by intro d' hd'; cases hd') x hx with hx1 | hgx
                · rcases ih _ _ _ _ _ hin
                      (by intro d' hd'; cases hd'; exact hgood) x hx1 with hx0 | hgx
                  · exact Or.inl hx0
                  · exact Or.inr hgx
                · exact Or.inr hgx

/-- The accumulator never acquires duplicates. -/
theorem gsrdGo_nodup (st : WStore) (node : WorkNode) :
    ∀ (fuel : Nat) (task : GsrdTask) (seen acc seen' acc' : List Nat),
    gsrdGo st node fuel task (seen, acc) = some (seen', acc') →
    acc.Nodup → acc'.Nodup := by
  intro fuel
  induction fuel with
  | zero => intro task seen acc s' a' h; simp [gsrdGo] at h
  | succ fuel ih =>
    intro task seen acc s' a' h hnd
    cases task with
    | addDep d =>
      by_cases hs : setHas seen d = true
      · simp [gsrdGo, hs] at h
        exact h.2 ▸ hnd
      · simp only [gsrdGo, hs, Bool.false_eq_true, if_false] at h
        cases hin : gsrdGo st node fuel (GsrdTask.peers (getN st d).peerNames)
            (setAdd seen d, acc) with
        | none => rw [hin] at h; cases h
        | some p =>
          obtain ⟨s2, a2⟩ := p
          rw [hin] at h
          simp only [Option.some.injEq, Prod.mk.injEq] at h
          exact h.2 ▸ setAdd_nodup a2 d (ih _ _ _ _ _ hin hnd)
    | peers names =>
      cases names with
      | nil =>
        simp [gsrdGo] at h
        exact h.2 ▸ hnd
      | cons pn rest =>
        by_cases hp : setHas node.peerNames pn = true
        · simp only [gsrdGo, hp, if_true, Option.some_bind] at h
          exact ih _ _ _ _ _ h hnd
        · cases hg : mapGet node.dependencies pn with
          | none =>
            simp only [gsrdGo, hp, hg, Bool.false_eq_true, if_false, Option.some_bind] at h
            exact ih _ _ _ _ _ h hnd
          | some pid =>
            by_cases hd : setHas acc pid = true
            · simp only [gsrdGo, hp, hg, hd, Bool.false_eq_true, if_false, if_true,
                Option.some_bind] at h
              exact ih _ _ _ _ _ h hnd
            · simp only [gsrdGo, hp, hg, hd, Bool.false_eq_true, if_false] at h
              cases hin : gsrdGo st node fuel (GsrdTask.addDep pid) (seen, acc) with
              | none => rw [hin] at h; cases h
              | some mid =>
                obtain ⟨s1, a1⟩ := mid
                rw [hin] at h
                exact ih _ _ _ _ _ h (ih _ _ _ _ _ hin hnd)

/-- Stack hypothesis of the ordering induction: everything seen but not yet
accumulated is a DFS ancestor, hence peer-reaches the current target. -/
def gsrdHyp (st : WStore) (node : WorkNode) : GsrdTask → List Nat → List Nat → Prop
  | GsrdTask.addDep d, seen, acc =>
      ∀ y ∈ seen, y ∉ acc → Relation.TransGen (sEdge st node) y d
  | GsrdTask.peers names, seen, acc =>
      ∀ pn ∈ names, setHas node.peerNames pn = false →
        ∀ p, mapGet node.dependencies pn = some p →
          ∀ y ∈ seen, y ∉ acc → Relation.TransGen (sEdge st node) y p

/-- Postcondition of the ordering induction: a finished peer loop leaves
every one of its sibling targets accumulated or seen. -/
def gsrdPost (_st : WStore) (node : WorkNode) : GsrdTask → List Nat → List Nat → Prop
  | GsrdTask.addDep _, _, _ => True
  | GsrdTask.peers names, seen', acc' =>
      ∀ pn ∈ names, setHas node.peerNames pn = false →
        ∀ p, mapGet node.dependencies pn = some p → p ∈ acc' ∨ p ∈ seen'

/-- The DFS of `getSortedRegularDependencies` keeps the accumulator
ordered: when an element is appended, each of its sibling peers is already
accumulated, or is a DFS ancestor — the latter witnessing a peer cycle. -/
theorem gsrdGo_ordered (st : WStore) (node : WorkNode) :
    ∀ (fuel : Nat) (task : GsrdTask) (seen acc seen' acc' : List Nat),
    gsrdGo st node fuel task (seen, acc) = some (seen', acc') →
    accOrdered st node acc →
    gsrdHyp st node task seen acc →
    accOrdered st node acc' ∧ gsrdPost st node task seen' acc' := by
  intro fuel
  induction fuel with
  | zero => intro task seen acc s' a' h; simp [gsrdGo] at h
  | succ fuel ih =>
    intro task seen acc s' a' h hord hhyp
    cases task with
    | addDep d =>
      by_cases hs : setHas seen d = true
      · simp [gsrdGo, hs] at h
        exact ⟨h.2 ▸ hord, trivial⟩
      · simp only [gsrdGo, hs, Bool.false_eq_true, if_false] at h
        cases hin : gsrdGo st node fuel (GsrdTask.peers (getN st d).peerNames)
            (setAdd seen d, acc) with
        | none => rw [hin] at h; cases h
        | some p2 =>
          obtain ⟨s2, a2⟩ := p2
          rw [hin] at h
          simp only [Option.some.injEq, Prod.mk.injEq] at h
          obtain ⟨rfl, rfl⟩ := h
          have hyp2 : gsrdHyp st node (GsrdTask.peers (getN st d).peerNames) (setAdd seen d) acc := by
            intro pn hpn hfl p hget y hy hny
            have hedge : sEdge st node d p := ⟨pn, hpn, hfl, hget⟩
            rcases (mem_setAdd seen d y).mp hy with hy0 | rfl
            · exact (hhyp y hy0 hny).tail hedge
            · exact Relation.TransGen.single hedge
          obtain ⟨hord2, hpost2⟩ := ih _ _ _ _ _ hin hord hyp2
          refine ⟨?_, trivial⟩
          by_cases hd2 : d ∈ a2
          · simpa [setAdd, hd2] using hord2
          · have hacc' : setAdd a2 d = a2 ++ [d] := by simp [setAdd, hd2]
            rw [hacc']
            intro d0 hd0 p hedge
            rcases List.mem_append.mp hd0 with hd0a | hd0d
            · rcases hord2 d0 hd0a p hedge with hidx | htg
              · left
                have hpa2 : p ∈ a2 :=
                  List.indexOf_lt_length.mp
                    (lt_trans hidx (List.indexOf_lt_length.mpr hd0a))
                rw [indexOf_append_left _ _ _ hpa2, indexOf_append_left _ _ _ hd0a]
                exact hidx
              · exact Or.inr htg
            · have hd0d : d0 = d := by simpa using hd0d
              rw [hd0d] at hedge ⊢
              obtain ⟨pn, hpn, hfl, hget⟩ := hedge
              rcases hpost2 pn hpn hfl p hget with hpa | hps
              · left
                rw [indexOf_append_left _ _ _ hpa, indexOf_append_self _ _ hd2]
                exact List.indexOf_lt_length.mpr hpa
              · by_cases hpa : p ∈ a2
                · left
                  rw [indexOf_append_left _ _ _ hpa, indexOf_append_self _ _ hd2]
                  exact List.indexOf_lt_length.mpr hpa
                · have hseen := gsrdGo_seen_sub st node _ _ _ _ _ _ hin p hps hpa
                  rcases (mem_setAdd seen d p).mp hseen with hp0 | rfl
                  · have hpacc : p ∉ acc := fun hc =>
                      hpa ((gsrdGo_mono st node _ _ _ _ _ _ hin).2 p hc)
                    exact Or.inr (hhyp p hp0 hpacc)
                  · exact Or.inr (Relation.TransGen.single ⟨pn, hpn, hfl, hget⟩)
    | peers names =>
      cases names with
      | nil =>
        simp [gsrdGo] at h
        refine ⟨h.2 ▸ hord, ?_⟩
        intro pn hpn
        cases hpn
      | cons pn rest =>
        have hhyprest : ∀ (s1 a1 : List Nat), (∀ y ∈ s1, y ∉ a1 → y ∈ seen) →
            (∀ y, y ∈ acc → y ∈ a1) →
            gsrdHyp st node (GsrdTask.peers rest) s1 a1 := by
          intro s1 a1 hsub hmono pn' hpn' hfl p hget y hy hny
          exact hhyp pn' (List.mem_cons_of_mem _ hpn') hfl p hget y (hsub y hy hny)
            (fun hc => hny (hmono y hc))
        by_cases hp : setHas node.peerNames pn = true
        · simp only [gsrdGo, hp, if_true, Option.some_bind] at h
          obtain ⟨hordf, hpostf⟩ := ih _ _ _ _ _ h hord
            (hhyprest seen acc (fun y hy _ => hy) (fun y hy => hy))
          refine ⟨hordf, ?_⟩
          intro pn' hpn' hfl p hget
          rcases List.mem_cons.mp hpn' with rfl | hpn'
          · rw [hp] at hfl; cases hfl
          · exact hpostf pn' hpn' hfl p hget
        · cases hg : mapGet node.dependencies pn with
          | none =>
            simp only [gsrdGo, hp, hg, Bool.false_eq_true, if_false, Option.some_bind] at h
            obtain ⟨hordf, hpostf⟩ := ih _ _ _ _ _ h hord
              (hhyprest seen acc (fun y hy _ => hy) (fun y hy => hy))
            refine ⟨hordf, ?_⟩
            intro pn' hpn' hfl p hget
            rcases List.mem_cons.mp hpn' with rfl | hpn'
            · rw [hg] at hget; cases hget
            · exact hpostf pn' hpn' hfl p hget
          | some pid =>
            by_cases hd : setHas acc pid = true
            · simp only [gsrdGo, hp, hg, hd, Bool.false_eq_true, if_false, if_true,
                Option.some_bind] at h
              obtain ⟨hordf, hpostf⟩ := ih _ _ _ _ _ h hord
                (hhyprest seen acc (fun y hy _ => hy) (fun y hy => hy))
              refine ⟨hordf, ?_⟩
              intro pn' hpn' hfl p hget
              rcases List.mem_cons.mp hpn' with rfl | hpn'
              · rw [hg] at hget
                injection hget with hget
                subst hget
                exact Or.inl ((gsrdGo_mono st node _ _ _ _ _ _ h).2 pid
                  (of_decide_eq_true hd))
              · exact hpostf pn' hpn' hfl p hget
            · simp only [gsrdGo, hp, hg, hd, Bool.false_eq_true, if_false] at h
              cases hin : gsrdGo st node fuel (GsrdTask.addDep pid) (seen, acc) with
              | none => rw [hin] at h; cases h
              | some mid =>
                obtain ⟨s1, a1⟩ := mid
                rw [hin] at h
                have hyp0 : gsrdHyp st node (GsrdTask.addDep pid) seen acc := by
                  intro y hy hny
                  exact hhyp pn (List.mem_cons_self pn rest)
                    (Bool.eq_false_iff.mpr hp) pid hg y hy hny
                obtain ⟨hord1, _⟩ := ih _ _ _ _ _ hin hord hyp0
                obtain ⟨hordf, hpostf⟩ := ih _ _ _ _ _ h hord1
                  (hhyprest s1 a1 (gsrdGo_seen_sub st node _ _ _ _ _ _ hin)
                    ((gsrdGo_mono st node _ _ _ _ _ _ hin).2))
                refine ⟨hordf, ?_⟩
                intro pn' hpn' hfl p hget
                rcases List.mem_cons.mp hpn' with rfl | hpn'
                · rw [hg] at hget
                  injection hget with hget
                  subst hget
                  rcases gsrdGo_addDep_post st node _ _ _ _ _ _ hin with hpin | hpseen
                  · exact Or.inl ((gsrdGo_mono st node _ _ _ _ _ _ h).2 pid hpin)
                  · exact Or.inr ((gsrdGo_mono st node _ _ _ _ _ _ h).1 pid
                      ((gsrdGo_mono st node _ _ _ _ _ _ hin).1 pid hpseen))
                · exact hpostf pn' hpn' hfl p hget

/-- One case analysis on a step of `gsrdOuter`. -/
theorem gsrdOuter_step (st : WStore) (node : WorkNode) (fuel : Nat) (e : String × Nat)
    (rest : List (String × Nat)) (acc out : List Nat)
    (h : gsrdOuter st node (fuel + 1) (e :: rest) acc = some out) :
    (setHas node.peerNames (getN st e.2).name = true ∧ gsrdOuter st node fuel rest acc = some out)
    ∨ (setHas node.peerNames (getN st e.2).name = false ∧
       ∃ s1 a1, gsrdGo st node fuel (GsrdTask.addDep e.2) ([], acc) = some (s1, a1)
         ∧ gsrdOuter st node fuel rest a1 = some out) := by
  by_cases hp : setHas node.peerNames (getN st e.2).name = true
  · simp only [gsrdOuter, hp, if_true, Option.some_bind] at h
    exact Or.inl ⟨hp, h⟩
  · simp only [gsrdOuter, hp, Bool.false_eq_true, if_false] at h
    cases hin : gsrdGo st node fuel (GsrdTask.addDep e.2) ([], acc) with
    | none => rw [hin] at h; cases h
    | some mid =>
      obtain ⟨s1, a1⟩ := mid
      rw [hin] at h
      exact Or.inr ⟨Bool.eq_false_iff.mpr hp, s1, a1, rfl, h⟩

theorem gsrdOuter_mono (st : WStore) (node : WorkNode) :
    ∀ (fuel : Nat) (entries : List (String × Nat)) (acc out : List Nat),
    gsrdOuter st node fuel entries acc = some out → ∀ x ∈ acc, x ∈ out := by
  intro fuel
  induction fuel with
  | zero =>
    intro entries acc out h
    cases entries with
    | nil => simp [gsrdOuter] at h; exact fun x hx => h ▸ hx
    | cons e rest => simp [gsrdOuter] at h
  | succ fuel ih =>
    intro entries acc out h
    cases entries with
    | nil => simp [gsrdOuter] at h; exact fun x hx => h ▸ hx
    | cons e rest =>
      rcases gsrdOuter_step st node fuel e rest acc out h with ⟨_, hr⟩ | ⟨_, s1, a1, hin, hr⟩
      · exact ih _ _ _ hr
      · exact fun x hx => ih _ _ _ hr x ((gsrdGo_mono st node _ _ _ _ _ _ hin).2 x hx)

theorem gsrdOuter_ordered (st : WStore) (node : WorkNode) :
    ∀ (fuel : Nat) (entries : List (String × Nat)) (acc out : List Nat),
    gsrdOuter st node fuel entries acc = some out →
    accOrdered st node acc → accOrdered st node out := by
  intro fuel
  induction fuel with
  | zero =>
    intro entries acc out h hord
    cases entries with
    | nil => simp [gsrdOuter] at h; exact h ▸ hord
    | cons e rest => simp [gsrdOuter] at h
  | succ fuel ih =>
    intro entries acc out h hord
    cases entries with
    | nil => simp [gsrdOuter] at h; exact h ▸ hord
    | cons e rest =>
      rcases gsrdOuter_step st node fuel e rest acc out h with ⟨_, hr⟩ | ⟨_, s1, a1, hin, hr⟩
      · exact ih _ _ _ hr hord
      · exact ih _ _ _ hr
          (gsrdGo_ordered st node _ _ _ _ _ _ hin hord (by intro y hy; cases hy)).1

theorem gsrdOuter_elems (st : WStore) (node : WorkNode)
    (hkeys : ∀ e ∈ node.dependencies, (getN st e.2).name = e.1) :
    ∀ (fuel : Nat) (entries : List (String × Nat)) (acc out : List Nat),
    gsrdOuter st node fuel entries acc = some out →
    (∀ e ∈ entries, e ∈ node.dependencies) →
    ∀ x ∈ out, x ∈ acc ∨ goodDep st node x := by
  intro fuel
  induction fuel with
  | zero =>
    intro entries acc out h _ x hx
    cases entries with
    | nil => simp [gsrdOuter] at h; exact Or.inl (h ▸ hx)
    | cons e rest => simp [gsrdOuter] at h
  | succ fuel ih =>
    intro entries acc out h hent x hx
    cases entries with
    | nil => simp [gsrdOuter] at h; exact Or.inl (h ▸ hx)
    | cons e rest =>
      rcases gsrdOuter_step st node fuel e rest acc out h with ⟨_, hr⟩ | ⟨hp, s1, a1, hin, hr⟩
      · exact ih _ _ _ hr (fun e' he' => hent e' (List.mem_cons_of_mem _ he')) x hx
      · rcases ih _ _ _ hr (fun e' he' => hent e' (List.mem_cons_of_mem _ he')) x hx with
          hx1 | hgx
        · rcases gsrdGo_elems st node hkeys _ _ _ _ _ _ hin
              (by rintro d rfl'
                  injection rfl' with hd
                  subst hd
                  exact ⟨⟨e, hent e (List.mem_cons_self e rest), rfl⟩, hp⟩) x hx1 with
            hx0 | hgx
          · exact Or.inl hx0
          · exact Or.inr hgx
        · exact Or.inr hgx

theorem gsrdOuter_complete (st : WStore) (node : WorkNode) :
    ∀ (fuel : Nat) (entries : List (String × Nat)) (acc out : List Nat),
    gsrdOuter st node fuel entries acc = some out →
    ∀ e ∈ entries, setHas node.peerNames (getN st e.2).name = false → e.2 ∈ out := by
  intro fuel
  induction fuel with
  | zero =>
    intro entries acc out h e he
    cases entries with
    | nil => cases he
    | cons e0 rest => simp [gsrdOuter] at h
  | succ fuel ih =>
    intro entries acc out h e he hfl
    cases entries with
    | nil => cases he
    | cons e0 rest =>
      rcases List.mem_cons.mp he with rfl | hmem
      · rcases gsrdOuter_step st node fuel e rest acc out h with ⟨hp, _⟩ | ⟨_, s1, a1, hin, hr⟩
        · rw [hfl] at hp; cases hp
        · rcases gsrdGo_addDep_post st node _ _ _ _ _ _ hin with hpin | hpseen
          · exact gsrdOuter_mono st node _ _ _ _ hr e.2 hpin
          · cases hpseen
      · rcases gsrdOuter_step st node fuel e0 rest acc out h with ⟨_, hr⟩ | ⟨_, s1, a1, hin, hr⟩
        · exact ih _ _ _ hr e hmem hfl
        · exact ih _ _ _ hr e hmem hfl

theorem gsrdOuter_nodup (st : WStore) (node : WorkNode) :
    ∀ (fuel : Nat) (entries : List (String × Nat)) (acc out : List Nat),
    gsrdOuter st node fuel entries acc = some out → acc.Nodup → out.Nodup := by
  intro fuel
  induction fuel with
  | zero =>
    intro entries acc out h hnd
    cases entries with
    | nil => simp [gsrdOuter] at h; exact h ▸ hnd
    | cons e rest => simp [gsrdOuter] at h
  | succ fuel ih =>
    intro entries acc out h hnd
    cases entries with
    | nil => simp [gsrdOuter] at h; exact h ▸ hnd
    | cons e rest =>
      rcases gsrdOuter_step st node fuel e rest acc out h with ⟨_, hr⟩ | ⟨_, s1, a1, hin, hr⟩
      · exact ih _ _ _ hr hnd
      · exact ih _ _ _ hr (gsrdGo_nodup st node _ _ _ _ _ _ hin hnd)

/-! ## Store access lemmas -/

theorem listSet_getD_ne {α : Type} [Inhabited α] (l : List α) (i j : Nat) (a : α) (h : i ≠ j) :
    (l.set i a).getD j default = l.getD j default := by
  induction l generalizing i j with
  | nil => simp
  | cons x xs ih =>
    cases i with
    | zero =>
      cases j with
      | zero => exact absurd rfl h
      | succ j => simp [List.getD]
    | succ i =>
      cases j with
      | zero => simp [List.getD]
      | succ j => simpa [List.getD] using ih i j (by omega)

theorem listSet_getD_self {α : Type} [Inhabited α] (l : List α) (i : Nat) (a : α)
    (h : i < l.length) : (l.set i a).getD i default = a := by
  induction l generalizing i with
  | nil => simp at h
  | cons x xs ih =>
    cases i with
    | zero => simp [List.getD]
    | succ i => simpa [List.getD] using ih i (by simpa using h)

theorem listSet_getD_ge {α : Type} [Inhabited α] (l : List α) (i j : Nat) (a : α)
    (h : l.length ≤ i) : (l.set i a).getD j default = l.getD j default := by
  rw [List.set_eq_of_length_le h]

theorem listAppend_getD_lt {α : Type} [Inhabited α] (l t : List α) (j : Nat)
    (h : j < l.length) : (l ++ t).getD j default = l.getD j default := by
  unfold List.getD
  rw [List.get?_eq_getElem?, List.get?_eq_getElem?, List.getElem?_append_left h]

theorem listAppend_getD_self {α : Type} [Inhabited α] (l : List α) (a : α) :
    (l ++ [a]).getD l.length default = a := by
  unfold List.getD
  rw [List.get?_eq_getElem?, List.getElem?_append_right (le_refl _)]
  simp

theorem getN_setN_ne (st : WStore) (i j : Nat) (n : WorkNode) (h : i ≠ j) :
    getN (setN st i n) j = getN st j := listSet_getD_ne st i j n h

theorem getN_setN_self (st : WStore) (i : Nat) (n : WorkNode) (h : i < st.length) :
    getN (setN st i n) i = n := listSet_getD_self st i n h

theorem getN_setN_ge (st : WStore) (i j : Nat) (n : WorkNode) (h : st.length ≤ i) :
    getN (setN st i n) j = getN st j := listSet_getD_ge st i j n h

theorem length_setN (st : WStore) (i : Nat) (n : WorkNode) :
    (setN st i n).length = st.length := List.length_set st i n

theorem getN_append_lt (st : WStore) (n : WorkNode) (j : Nat) (h : j < st.length) :
    getN (st ++ [n]) j = getN st j := listAppend_getD_lt st [n] j h

theorem getN_append_self (st : WStore) (n : WorkNode) :
    getN (st ++ [n]) st.length = n := listAppend_getD_self st n

theorem getN_ge (st : WStore) (i : Nat) (h : st.length ≤ i) : getN st i = default :=
  List.getD_eq_default st default h

/-! ## Further map and set lemmas -/

theorem mem_mapSet {K V : Type} [DecidableEq K] (m : List (K × V)) (k : K) (v : V)
    (p : K × V) (h : p ∈ mapSet m k v) : p ∈ m ∨ p = (k, v) := by
  induction m with
  | nil => simpa [mapSet] using h
  | cons e rest ih =>
    obtain ⟨k', v'⟩ := e
    by_cases he : k' = k
    · rw [show mapSet ((k', v') :: rest) k v = (k', v) :: rest by simp [mapSet, he]] at h
      rcases List.mem_cons.mp h with rfl | hm
      · exact Or.inr (by rw [he])
      · exact Or.inl (List.mem_cons_of_mem _ hm)
    · rw [show mapSet ((k', v') :: rest) k v = (k', v') :: mapSet rest k v by
        simp [mapSet, he]] at h
      rcases List.mem_cons.mp h with rfl | hm
      · exact Or.inl (List.mem_cons_self _ _)
      · rcases ih hm with hm' | hm'
        · exact Or.inl (List.mem_cons_of_mem _ hm')
        · exact Or.inr hm'

theorem keys_mapSet {K V : Type} [DecidableEq K] (m : List (K × V)) (k : K) (v : V) :
    (mapSet m k v).map Prod.fst =
      if k ∈ m.map Prod.fst then m.map Prod.fst else m.map Prod.fst ++ [k] := by
  induction m with
  | nil => simp [mapSet]
  | cons e rest ih =>
    obtain ⟨k', v'⟩ := e
    by_cases he : k' = k
    · simp [mapSet, he]
    · have hne : ¬ k = k' := fun hEq => he hEq.symm
      simp only [mapSet, he, if_false, List.map_cons, List.mem_cons, hne, false_or, ih]
      by_cases hm : k ∈ rest.map Prod.fst
      · simp [hm]
      · simp [hm]

theorem nodup_keys_mapSet {K V : Type} [DecidableEq K] (m : List (K × V)) (k : K) (v : V)
    (h : (m.map Prod.fst).Nodup) : ((mapSet m k v).map Prod.fst).Nodup := by
  rw [keys_mapSet]
  by_cases hm : k ∈ m.map Prod.fst
  · simpa [hm] using h
  · simp only [hm, if_false]
    simp [List.nodup_append, h, hm]

theorem mem_mapDelete {K V : Type} [DecidableEq K] (m : List (K × V)) (k : K)
    (p : K × V) (h : p ∈ mapDelete m k) : p ∈ m :=
  (List.mem_filter.mp h).1

theorem nodup_keys_mapDelete {K V : Type} [DecidableEq K] (m : List (K × V)) (k : K)
    (h : (m.map Prod.fst).Nodup) : ((mapDelete m k).map Prod.fst).Nodup :=
  ((List.filter_sublist m).map Prod.fst).nodup h

theorem setAdd_of_not_mem {α : Type} [DecidableEq α] (l : List α) (a : α) (h : a ∉ l) :
    setAdd l a = l ++ [a] := by simp [setAdd, h]

theorem setDelete_of_not_mem {α : Type} [DecidableEq α] (l : List α) (a : α) (h : a ∉ l) :
    setDelete l a = l := by
  apply List.filter_eq_self.mpr
  intro x hx
  simp only [ne_eq, decide_eq_true_eq]
  intro hxa
  exact h (hxa ▸ hx)

theorem setDelete_setAdd {α : Type} [DecidableEq α] (l : List α) (a : α) (h : a ∉ l) :
    setDelete (setAdd l a) a = l := by
  rw [setAdd_of_not_mem l a h]
  show (l ++ [a]).filter _ = l
  rw [List.filter_append]
  have h1 : setDelete l a = l := setDelete_of_not_mem l a h
  unfold setDelete at h1
  rw [h1]
  simp

/-! ## The store well-formedness invariant (name uniqueness) -/

/-- Well-formedness of one dependency map with respect to a store: every
binding is a valid id whose node carries the binding's key as its name, and
keys are pairwise distinct (JavaScript `Map` semantics plus the
`dependencies.set(dep.name, dep)` discipline of the source). -/
def WFDeps (st : WStore) (l : List (String × Nat)) : Prop :=
  (∀ e ∈ l, e.2 < st.length ∧ (getN st e.2).name = e.1) ∧ (l.map Prod.fst).Nodup

/-- The store invariant: every node's dependency map is well formed. -/
def WFStore (st : WStore) : Prop := ∀ nid, WFDeps st (getN st nid).dependencies

/-- `st'` extends `st`: every allocated id stays allocated and keeps its
name (no operation of the algorithm ever renames a node). -/
def keepsNames (st st' : WStore) : Prop :=
  st.length ≤ st'.length ∧ ∀ j, j < st.length → (getN st' j).name = (getN st j).name

theorem keepsNames_refl (st : WStore) : keepsNames st st := ⟨le_refl _, fun _ _ => rfl⟩

theorem keepsNames_trans {a b c : WStore} (h1 : keepsNames a b) (h2 : keepsNames b c) :
    keepsNames a c :=
  ⟨le_trans h1.1 h2.1, fun j hj => (h2.2 j (lt_of_lt_of_le hj h1.1)).trans (h1.2 j hj)⟩

theorem WFDeps_mono {st st' : WStore} (l : List (String × Nat)) (h : WFDeps st l)
    (hk : keepsNames st st') : WFDeps st' l :=
  ⟨fun e he => ⟨lt_of_lt_of_le (h.1 e he).1 hk.1,
     (hk.2 e.2 (h.1 e he).1).trans (h.1 e he).2⟩, h.2⟩

theorem WFDeps_nil (st : WStore) : WFDeps st [] :=
  ⟨fun e he => absurd he (List.not_mem_nil e), List.nodup_nil⟩

theorem WFDeps_mapSet {st : WStore} {l : List (String × Nat)} (h : WFDeps st l)
    (k : String) (v : Nat) (hv : v < st.length) (hk : (getN st v).name = k) :
    WFDeps st (mapSet l k v) := by
  refine ⟨fun e he => ?_, nodup_keys_mapSet l k v h.2⟩
  rcases mem_mapSet l k v e he with hm | rfl
  · exact h.1 e hm
  · exact ⟨hv, hk⟩

theorem WFDeps_mapDelete {st : WStore} {l : List (String × Nat)} (h : WFDeps st l)
    (k : String) : WFDeps st (mapDelete l k) :=
  ⟨fun e he => h.1 e (mem_mapDelete l k e he), nodup_keys_mapDelete l k h.2⟩

/-- Writing a node with well-formed dependencies and an unchanged name
preserves the store invariant. -/
theorem WF_setN {st : WStore} (i : Nat) (n : WorkNode) (hwf : WFStore st)
    (hn : WFDeps st n.dependencies) (hname : n.name = (getN st i).name) :
    WFStore (setN st i n) ∧ keepsNames st (setN st i n) := by
  have hk : keepsNames st (setN st i n) := by
    refine ⟨by rw [length_setN], fun j hj => ?_⟩
    by_cases hij : i = j
    · subst hij
      by_cases hlt : i < st.length
      · rw [getN_setN_self st i n hlt, hname]
      · rw [getN_setN_ge st i i n (le_of_not_lt hlt)]
    · rw [getN_setN_ne st i j n hij]
  refine ⟨fun nid => ?_, hk⟩
  by_cases hij : i = nid
  · subst hij
    by_cases hlt : i < st.length
    · rw [getN_setN_self st i n hlt]
      exact WFDeps_mono _ hn hk
    · rw [getN_setN_ge st i i n (le_of_not_lt hlt)]
      exact WFDeps_mono _ (hwf i) hk
  · rw [getN_setN_ne st i nid n hij]
    exact WFDeps_mono _ (hwf nid) hk

/-- Allocating a node with well-formed dependencies preserves the store
invariant. -/
theorem WF_allocN {st : WStore} (n : WorkNode) (hwf : WFStore st)
    (hn : WFDeps st n.dependencies) :
    WFStore (st ++ [n]) ∧ keepsNames st (st ++ [n]) := by
  have hk : keepsNames st (st ++ [n]) :=
    ⟨by simp, fun j hj => by rw [getN_append_lt st n j hj]⟩
  refine ⟨fun nid => ?_, hk⟩
  rcases lt_trichotomy nid st.length with h | h | h
  · rw [getN_append_lt st n nid h]
    exact WFDeps_mono _ (hwf nid) hk
  · rw [h, getN_append_self]
    exact WFDeps_mono _ hn hk
  · rw [getN_ge (st ++ [n]) nid (by simpa using h)]
    exact WFDeps_nil _

theorem markNodeCoupledGo_WF :
    ∀ (fuel : Nat) (task : MCTask) (st : WStore) (seen : List Nat) (st' : WStore)
      (seen' : List Nat),
    markNodeCoupledGo fuel task (st, seen) = some (st', seen') →
    WFStore st → WFStore st' ∧ keepsNames st st' := by
  intro fuel
  induction fuel with
  | zero => intro task st seen st' seen' h _; simp [markNodeCoupledGo] at h
  | succ fuel ih =>
    intro task st seen st' seen' h hwf
    cases task with
    | node nodeId =>
      by_cases hs : setHas seen nodeId = true
      · simp only [markNodeCoupledGo, hs, if_true, Option.some.injEq, Prod.mk.injEq] at h
        obtain ⟨h1, _⟩ := h
        subst h1
        exact ⟨hwf, keepsNames_refl st⟩
      · simp only [markNodeCoupledGo, hs, Bool.false_eq_true, if_false] at h
        obtain ⟨hwf1, hk1⟩ := WF_setN nodeId { getN st nodeId with decoupled := false }
          hwf (hwf nodeId) rfl
        obtain ⟨hwf2, hk2⟩ := ih _ _ _ _ _ h hwf1
        exact ⟨hwf2, keepsNames_trans hk1 hk2⟩
    | list entries peers =>
      cases entries with
      | nil =>
        simp only [markNodeCoupledGo, Option.some.injEq, Prod.mk.injEq] at h
        obtain ⟨h1, _⟩ := h
        subst h1
        exact ⟨hwf, keepsNames_refl st⟩
      | cons e rest =>
        by_cases hp : setHas peers (getN st e.2).name = true
        · simp only [markNodeCoupledGo, hp, if_true] at h
          exact ih _ _ _ _ _ h hwf
        · simp only [markNodeCoupledGo, hp, Bool.false_eq_true, if_false] at h
          cases hm : markNodeCoupledGo fuel (MCTask.node e.2) (st, seen) with
          | none => rw [hm] at h; cases h
          | some mid =>
            obtain ⟨st1, seen1⟩ := mid
            rw [hm] at h
            obtain ⟨hwf1, hk1⟩ := ih _ _ _ _ _ hm hwf
            obtain ⟨hwf2, hk2⟩ := ih _ _ _ _ _ h hwf1
            exact ⟨hwf2, keepsNames_trans hk1 hk2⟩

/-- The clone loop's `seen` map always sends an input id to an allocated
work node carrying the input node's name. -/
def cloneSeenOK (forest : InForest) (st : WStore) (seen : List (Nat × Nat)) : Prop :=
  ∀ p ∈ seen, p.2 < st.length ∧ (getN st p.2).name = (forest.getD p.1 default).name

theorem cloneSeenOK_mono (forest : InForest) {st st' : WStore} (seen : List (Nat × Nat))
    (h : cloneSeenOK forest st seen) (hk : keepsNames st st') :
    cloneSeenOK forest st' seen := fun p hp =>
  ⟨lt_of_lt_of_le (h p hp).1 hk.1, (hk.2 p.2 (h p hp).1).trans (h p hp).2⟩

theorem cloneAddGo_WF (forest : InForest) :
    ∀ (fuel : Nat) (task : CloneTask) (st : WStore) (seen : List (Nat × Nat))
      (st' : WStore) (seen' : List (Nat × Nat)),
    cloneAddGo forest fuel task (st, seen) = some (st', seen') →
    WFStore st → cloneSeenOK forest st seen →
    WFStore st' ∧ keepsNames st st' ∧ cloneSeenOK forest st' seen' := by
  intro fuel
  induction fuel with
  | zero => intro task st seen st' seen' h _ _; simp [cloneAddGo] at h
  | succ fuel ih =>
    intro task st seen st' seen' h hwf hseen
    cases task with
    | node nodeId parentId =>
      cases hfound : mapGet seen nodeId with
      | some w =>
        simp only [cloneAddGo, hfound, Option.isSome_some] at h
        have hw := hseen (nodeId, w) (mapGet_mem seen nodeId w hfound)
        obtain ⟨hwf1, hk1⟩ := WF_setN parentId
          { getN st parentId with
            dependencies := mapSet (getN st parentId).dependencies
              (forest.getD nodeId default).name w
            originalDependencies := mapSet (getN st parentId).originalDependencies
              (forest.getD nodeId default).name w }
          hwf (WFDeps_mapSet (hwf parentId) _ w hw.1 hw.2) rfl
        cases hm : markNodeCoupled fuel w
            (setN st parentId
              { getN st parentId with
                dependencies := mapSet (getN st parentId).dependencies
                  (forest.getD nodeId default).name w
                originalDependencies := mapSet (getN st parentId).originalDependencies
                  (forest.getD nodeId default).name w }, []) with
        | none => rw [hm] at h; cases h
        | some mid =>
          obtain ⟨st2, l2⟩ := mid
          rw [hm] at h
          have hx : (some (st2, seen) : Option (WStore × List (Nat × Nat)))
              = some (st', seen') := h
          simp only [Option.some.injEq, Prod.mk.injEq] at hx
          obtain ⟨h1, h2⟩ := hx
          subst h1
          subst h2
          obtain ⟨hwf2, hk2⟩ := markNodeCoupledGo_WF _ _ _ _ _ _ hm hwf1
          have hk := keepsNames_trans hk1 hk2
          exact ⟨hwf2, hk, cloneSeenOK_mono forest seen hseen hk⟩
      | none =>
        simp only [cloneAddGo, hfound, Option.isSome_none, Bool.false_eq_true, if_false,
          allocN] at h
        obtain ⟨hwfA, hkA⟩ :=
          WF_allocN (freshWorkNode (forest.getD nodeId default)) hwf (WFDeps_nil st)
        have hwA : (getN (st ++ [freshWorkNode (forest.getD nodeId default)]) st.length).name
            = (forest.getD nodeId default).name := by
          rw [getN_append_self]
          exact rfl
        obtain ⟨hwf1, hk1⟩ := WF_setN parentId
          { getN (st ++ [freshWorkNode (forest.getD nodeId default)]) parentId with
            dependencies := mapSet (getN (st ++ [freshWorkNode (forest.getD nodeId default)])
                parentId).dependencies (forest.getD nodeId default).name st.length
            originalDependencies :=
              mapSet (getN (st ++ [freshWorkNode (forest.getD nodeId default)])
                parentId).originalDependencies (forest.getD nodeId default).name st.length }
          hwfA (WFDeps_mapSet (hwfA parentId) _ st.length (by simp) hwA) rfl
        have hkA1 := keepsNames_trans hkA hk1
        have hseen1 : cloneSeenOK forest
            (setN (st ++ [freshWorkNode (forest.getD nodeId default)]) parentId
              { getN (st ++ [freshWorkNode (forest.getD nodeId default)]) parentId with
                dependencies := mapSet (getN (st ++ [freshWorkNode (forest.getD nodeId default)])
                    parentId).dependencies (forest.getD nodeId default).name st.length
                originalDependencies :=
                  mapSet (getN (st ++ [freshWorkNode (forest.getD nodeId default)])
                    parentId).originalDependencies (forest.getD nodeId default).name st.length })
            (mapSet seen nodeId st.length) := by
          intro p hp
          rcases mem_mapSet seen nodeId st.length p hp with hm | rfl
          · exact cloneSeenOK_mono forest seen hseen hkA1 p hm
          · refine ⟨by rw [length_setN]; simp, ?_⟩
            rw [hk1.2 st.length (by simp), hwA]
        obtain ⟨hwf2, hk2, hseen2⟩ := ih _ _ _ _ _ h hwf1 hseen1
        exact ⟨hwf2, keepsNames_trans hkA1 hk2, hseen2⟩
    | list deps parentId =>
      cases deps with
      | nil =>
        simp only [cloneAddGo, Option.some.injEq, Prod.mk.injEq] at h
        obtain ⟨h1, h2⟩ := h
        subst h1
        subst h2
        exact ⟨hwf, keepsNames_refl st, hseen⟩
      | cons d ds =>
        simp only [cloneAddGo] at h
        cases hm : cloneAddGo forest fuel (CloneTask.node d parentId) (st, seen) with
        | none => rw [hm] at h; cases h
        | some mid =>
          obtain ⟨st1, seen1⟩ := mid
          rw [hm] at h
          obtain ⟨hwf1, hk1, hseen1⟩ := ih _ _ _ _ _ hm hwf hseen
          obtain ⟨hwf2, hk2, hseen2⟩ := ih _ _ _ _ _ h hwf1 hseen1
          exact ⟨hwf2, keepsNames_trans hk1 hk2, hseen2⟩

theorem cloneTree_WF (forest : InForest) (rootId fuel : Nat) (st : WStore) (wid : Nat)
    (h : cloneTree forest rootId fuel = some (st, wid)) : WFStore st := by
  simp only [cloneTree, allocN, List.nil_append, List.length_nil] at h
  cases hc : cloneAddGo forest fuel
      (CloneTask.list (forest.getD rootId default).dependencies 0)
      ([freshWorkNode (forest.getD rootId default)], [(rootId, 0)]) with
  | none => rw [hc] at h; cases h
  | some mid =>
    obtain ⟨st1, seen1⟩ := mid
    rw [hc] at h
    have hx : (some (st1, 0) : Option (WStore × Nat)) = some (st, wid) := h
    simp only [Option.some.injEq, Prod.mk.injEq] at hx
    obtain ⟨h1, _⟩ := hx
    subst h1
    have hwf0 : WFStore [freshWorkNode (forest.getD rootId default)] := by
      intro nid
      cases nid with
      | zero => exact WFDeps_nil _
      | succ n =>
        rw [getN_ge _ _ (by simp)]
        exact WFDeps_nil _
    have hseen0 : cloneSeenOK forest [freshWorkNode (forest.getD rootId default)]
        [(rootId, 0)] := by
      intro p hp
      rcases List.mem_singleton.mp hp with rfl
      exact ⟨by simp, rfl⟩
    exact (cloneAddGo_WF forest _ _ _ _ _ _ hc hwf0 hseen0).1

theorem decoupleGraphNode_WF (st : WStore) (parentId nodeId : Nat) (hwf : WFStore st) :
    WFStore (decoupleGraphNode st parentId nodeId).1
    ∧ keepsNames st (decoupleGraphNode st parentId nodeId).1 := by
  unfold decoupleGraphNode
  by_cases hd : (getN st nodeId).decoupled = true
  · simp only [hd, if_true]
    exact ⟨hwf, keepsNames_refl st⟩
  · simp only [hd, Bool.false_eq_true, if_false, allocN]
    set clone : WorkNode := { getN st nodeId with decoupled := true } with hclone
    obtain ⟨hwfA, hkA⟩ := WF_allocN clone hwf (hwf nodeId)
    have hcname : (getN (st ++ [clone]) st.length).name = clone.name := by
      rw [getN_append_self]
    have hmain : ∀ st2 : WStore, WFStore st2 → keepsNames st st2 →
        st2.length = st.length + 1 → (getN st2 st.length).name = clone.name →
        WFStore (setN st2 parentId
          { getN st2 parentId with
            dependencies := mapSet (getN st2 parentId).dependencies clone.name st.length })
        ∧ keepsNames st (setN st2 parentId
          { getN st2 parentId with
            dependencies := mapSet (getN st2 parentId).dependencies clone.name st.length }) := by
      intro st2 hwf2 hk2 hlen2 hname2
      obtain ⟨hwf3, hk3⟩ := WF_setN parentId
        { getN st2 parentId with
          dependencies := mapSet (getN st2 parentId).dependencies clone.name st.length }
        hwf2 (WFDeps_mapSet (hwf2 parentId) clone.name st.length (by omega) hname2) rfl
      exact ⟨hwf3, keepsNames_trans hk2 hk3⟩
    cases hsd : mapGet clone.dependencies clone.name with
    | none =>
      simp only [hsd]
      exact hmain _ hwfA hkA (by simp) hcname
    | some selfDepId =>
      simp only [hsd]
      by_cases hid : (getN (st ++ [clone]) selfDepId).ident = clone.ident
      · simp only [hid, if_true]
        obtain ⟨hwfB, hkB⟩ := WF_setN st.length
          { clone with dependencies := mapSet clone.dependencies clone.name st.length }
          hwfA
          (WFDeps_mapSet (WFDeps_mono _ (hwf nodeId) hkA) clone.name st.length (by simp) hcname)
          (by rw [getN_append_self])
        refine hmain _ hwfB (keepsNames_trans hkA hkB) (by simp [length_setN]) ?_
        rw [getN_setN_self _ _ _ (by simp)]
      · simp only [hid, if_false]
        exact hmain _ hwfA hkA (by simp) hcname

/-- Every id returned by `getSortedRegularDependencies` is allocated. -/
theorem gsrd_valid (st : WStore) (p fuel : Nat) (l : List Nat) (hwf : WFStore st)
    (h : getSortedRegularDependencies st p fuel = some l) : ∀ x ∈ l, x < st.length := by
  intro x hx
  simp only [getSortedRegularDependencies] at h
  rcases gsrdOuter_elems st (getN st p) (fun e he => ((hwf p).1 e he).2) fuel
      (getN st p).dependencies [] l h (fun e he => he) x hx with h0 | hg
  · cases h0
  · obtain ⟨⟨e, he, hex⟩, _⟩ := hg
    exact hex ▸ ((hwf p).1 e he).1

theorem foldl_keys_subset {β : Type} (step : (List (Nat × HoistInfo) × β) → Nat →
    (List (Nat × HoistInfo) × β))
    (hstep : ∀ acc x p, p ∈ (step acc x).1 → p ∈ acc.1 ∨ p.1 = x) :
    ∀ (l : List Nat) (acc : List (Nat × HoistInfo) × β),
    ∀ p ∈ (l.foldl step acc).1, p ∈ acc.1 ∨ p.1 ∈ l := by
  intro l
  induction l with
  | nil => intro acc p hp; exact Or.inl hp
  | cons x xs ih =>
    intro acc p hp
    rcases ih (step acc x) p hp with hin | hin
    · rcases hstep acc x p hin with h | h
      · exact Or.inl h
      · exact Or.inr (by simp [h])
    · exact Or.inr (List.mem_cons_of_mem _ hin)

/-- Every key of the classification map built by `hgCollectInfos` is one of
the sorted regular dependencies. -/
theorem hgCollectInfos_keys (ctx : HGCtx) (st : WStore) (nodePath : List Nat)
    (parentId : Nat) (sortedDeps : List Nat) :
    ∀ p ∈ (hgCollectInfos ctx st nodePath parentId sortedDeps).1, p.1 ∈ sortedDeps := by
  intro p hp
  unfold hgCollectInfos at hp
  rcases foldl_keys_subset _ (fun acc x q hq => by
      rcases mem_mapSet acc.1 x (getNodeHoistInfo st ctx.rootNodePath (nodePath ++ [parentId])
        x ctx.hoistedDependencies ctx.hoistIdents ctx.hoistIdentMap
        (decide (ctx.options.debugLevel ≥ 2))) q hq with h | h
      · exact Or.inl h
      · exact Or.inr (by rw [h])) sortedDeps ([], []) p hp with h | h
  · cases h
  · exact h

/-- Validity side condition for the `addUnhoistableNode` task. -/
def aunTaskOK (L : Nat) : AunTask → Prop
  | AunTask.node nodeId => nodeId < L
  | AunTask.list _ => True

/-- `addUnhoistableNode` only ever adds keys that resolve in the parent's
dependency map, so key validity is preserved. -/
theorem aunGo_keys (st : WStore) (dt : List (String × List String))
    (parentDeps : List (String × Nat)) (info : HoistInfo) (L : Nat)
    (hpd : ∀ e ∈ parentDeps, e.2 < L) :
    ∀ (fuel : Nat) (task : AunTask) (unh : List Nat) (infos : List (Nat × HoistInfo))
      (unh' : List Nat) (infos' : List (Nat × HoistInfo)),
    aunGo st dt parentDeps info fuel task (unh, infos) = some (unh', infos') →
    (∀ p ∈ infos, p.1 < L) → aunTaskOK L task →
    ∀ p ∈ infos', p.1 < L := by
  intro fuel
  induction fuel with
  | zero => intro task unh infos u' i' h _ _; simp [aunGo] at h
  | succ fuel ih =>
    intro task unh infos u' i' h hinf htask
    cases task with
    | node nodeId =>
      by_cases hs : setHas unh nodeId = true
      · simp only [aunGo, hs, if_true, Option.some.injEq, Prod.mk.injEq] at h
        obtain ⟨_, h2⟩ := h
        subst h2
        exact hinf
      · simp only [aunGo, hs, Bool.false_eq_true, if_false] at h
        refine ih _ _ _ _ _ h ?_ trivial
        intro p hp
        rcases mem_mapSet infos nodeId info p hp with hm | rfl
        · exact hinf p hm
        · exact htask
    | list names =>
      cases names with
      | nil =>
        simp only [aunGo, Option.some.injEq, Prod.mk.injEq] at h
        obtain ⟨_, h2⟩ := h
        subst h2
        exact hinf
      | cons nm rest =>
        simp only [aunGo] at h
        cases hg : mapGet parentDeps nm with
        | some depId =>
          simp only [hg] at h
          cases hm : aunGo st dt parentDeps info fuel (AunTask.node depId) (unh, infos) with
          | none => rw [hm] at h; cases h
          | some mid =>
            obtain ⟨u1, i1⟩ := mid
            rw [hm] at h
            have h1 := ih _ _ _ _ _ hm hinf
              (hpd (nm, depId) (mapGet_mem parentDeps nm depId hg))
            exact ih _ _ _ _ _ h h1 trivial
        | none =>
          simp only [hg] at h
          exact ih _ _ _ _ _ h hinf trivial

theorem hgMarkNoLoop_keys (st : WStore) (dt : List (String × List String))
    (parentDeps : List (String × Nat)) (L : Nat) (hpd : ∀ e ∈ parentDeps, e.2 < L) :
    ∀ (fuel : Nat) (ks : List Nat) (unh : List Nat) (infos : List (Nat × HoistInfo))
      (unh' : List Nat) (infos' : List (Nat × HoistInfo)),
    hgMarkNoLoop st dt parentDeps fuel ks (unh, infos) = some (unh', infos') →
    (∀ p ∈ infos, p.1 < L) →
    ∀ p ∈ infos', p.1 < L := by
  intro fuel
  induction fuel with
  | zero =>
    intro ks unh infos u' i' h hinf
    cases ks with
    | nil =>
      simp only [hgMarkNoLoop, Option.some.injEq, Prod.mk.injEq] at h
      obtain ⟨_, h2⟩ := h
      subst h2
      exact hinf
    | cons k rest => simp [hgMarkNoLoop] at h
  | succ fuel ih =>
    intro ks unh infos u' i' h hinf
    cases ks with
    | nil =>
      simp only [hgMarkNoLoop, Option.some.injEq, Prod.mk.injEq] at h
      obtain ⟨_, h2⟩ := h
      subst h2
      exact hinf
    | cons k rest =>
      simp only [hgMarkNoLoop] at h
      cases hg : mapGet infos k with
      | none =>
        simp only [hg] at h
        exact ih _ _ _ _ _ h hinf
      | some i0 =>
        cases i0 with
        | yes =>
          simp only [hg] at h
          exact ih _ _ _ _ _ h hinf
        | depends l =>
          simp only [hg] at h
          exact ih _ _ _ _ _ h hinf
        | no r =>
          simp only [hg] at h
          cases ha : aunGo st dt parentDeps (HoistInfo.no r) fuel (AunTask.node k)
              (unh, infos) with
          | none => rw [ha] at h; cases h
          | some mid =>
            obtain ⟨u1, i1⟩ := mid
            rw [ha] at h
            have hk : k < L := (hinf (k, HoistInfo.no r) (mapGet_mem infos k _ hg))
            have h1 := aunGo_keys st dt parentDeps (HoistInfo.no r) L hpd _ _ _ _ _ _
              ha hinf hk
            exact ih _ _ _ _ _ h h1

/-- The parent rewrite the hoisting loop performs on a hoisted node. -/
def hglParentWrite (st : WStore) (parentId nodeId : Nat) : WStore :=
  setN st parentId
    { getN st parentId with
      dependencies := mapDelete (getN st parentId).dependencies (getN st nodeId).name
      hoistedDependencies :=
        mapSet (getN st parentId).hoistedDependencies (getN st nodeId).name nodeId
      reasons := mapDelete (getN st parentId).reasons (getN st nodeId).name }

theorem hgHoistLoop_cons_skip (ctx : HGCtx) (parentId : Nat) (unh : List Nat)
    (nodeId : Nat) (rest : List Nat) (st : WStore) (newNodes : List Nat)
    (hu : setHas unh nodeId = true) :
    hgHoistLoop ctx parentId unh (nodeId :: rest) (st, newNodes)
      = hgHoistLoop ctx parentId unh rest (st, newNodes) := by
  simp [hgHoistLoop, hu]

theorem hgHoistLoop_cons_none_ne (ctx : HGCtx) (parentId : Nat) (unh : List Nat)
    (nodeId : Nat) (rest : List Nat) (st : WStore) (newNodes : List Nat) (st1 : WStore)
    (hu : ¬ setHas unh nodeId = true)
    (hst1 : st1 = hglParentWrite st parentId nodeId)
    (hg : mapGet (getN st1 ctx.rootId).dependencies (getN st1 nodeId).name = none)
    (hne : (getN st1 ctx.rootId).ident ≠ (getN st1 nodeId).ident) :
    hgHoistLoop ctx parentId unh (nodeId :: rest) (st, newNodes)
      = hgHoistLoop ctx parentId unh rest
          (setN st1 ctx.rootId
            { getN st1 ctx.rootId with
              dependencies := mapSet (getN st1 ctx.rootId).dependencies
                (getN st1 nodeId).name nodeId },
           setAdd newNodes nodeId) := by
  subst hst1
  simp only [hgHoistLoop, hu, Bool.false_eq_true, if_false]
  rw [show setN st parentId
      { getN st parentId with
        dependencies := mapDelete (getN st parentId).dependencies (getN st nodeId).name
        hoistedDependencies :=
          mapSet (getN st parentId).hoistedDependencies (getN st nodeId).name nodeId
        reasons := mapDelete (getN st parentId).reasons (getN st nodeId).name }
      = hglParentWrite st parentId nodeId from rfl]
  simp [hg, hne]

theorem hgHoistLoop_cons_none_eq (ctx : HGCtx) (parentId : Nat) (unh : List Nat)
    (nodeId : Nat) (rest : List Nat) (st : WStore) (newNodes : List Nat) (st1 : WStore)
    (hu : ¬ setHas unh nodeId = true)
    (hst1 : st1 = hglParentWrite st parentId nodeId)
    (hg : mapGet (getN st1 ctx.rootId).dependencies (getN st1 nodeId).name = none)
    (hne : ¬ (getN st1 ctx.rootId).ident ≠ (getN st1 nodeId).ident) :
    hgHoistLoop ctx parentId unh (nodeId :: rest) (st, newNodes)
      = hgHoistLoop ctx parentId unh rest (st1, newNodes) := by
  subst hst1
  simp only [hgHoistLoop, hu, Bool.false_eq_true, if_false]
  rw [show setN st parentId
      { getN st parentId with
        dependencies := mapDelete (getN st parentId).dependencies (getN st nodeId).name
        hoistedDependencies :=
          mapSet (getN st parentId).hoistedDependencies (getN st nodeId).name nodeId
        reasons := mapDelete (getN st parentId).reasons (getN st nodeId).name }
      = hglParentWrite st parentId nodeId from rfl]
  simp [hg, not_not.mp hne]

theorem hgHoistLoop_cons_some (ctx : HGCtx) (parentId : Nat) (unh : List Nat)
    (nodeId : Nat) (rest : List Nat) (st : WStore) (newNodes : List Nat) (st1 : WStore)
    (hid : Nat)
    (hu : ¬ setHas unh nodeId = true)
    (hst1 : st1 = hglParentWrite st parentId nodeId)
    (hg : mapGet (getN st1 ctx.rootId).dependencies (getN st1 nodeId).name = some hid) :
    hgHoistLoop ctx parentId unh (nodeId :: rest) (st, newNodes)
      = hgHoistLoop ctx parentId unh rest
          (setN st1 hid
            { getN st1 hid with
              references := (getN st1 nodeId).references.foldl setAdd
                (getN st1 hid).references },
           newNodes) := by
  subst hst1
  simp only [hgHoistLoop, hu, Bool.false_eq_true, if_false]
  rw [show setN st parentId
      { getN st parentId with
        dependencies := mapDelete (getN st parentId).dependencies (getN st nodeId).name
        hoistedDependencies :=
          mapSet (getN st parentId).hoistedDependencies (getN st nodeId).name nodeId
        reasons := mapDelete (getN st parentId).reasons (getN st nodeId).name }
      = hglParentWrite st parentId nodeId from rfl]
  simp [hg]

theorem hglParentWrite_WF (st : WStore) (parentId nodeId : Nat) (hwf : WFStore st) :
    WFStore (hglParentWrite st parentId nodeId)
    ∧ keepsNames st (hglParentWrite st parentId nodeId)
    ∧ (hglParentWrite st parentId nodeId).length = st.length := by
  obtain ⟨h1, h2⟩ := WF_setN parentId
    { getN st parentId with
      dependencies := mapDelete (getN st parentId).dependencies (getN st nodeId).name
      hoistedDependencies :=
        mapSet (getN st parentId).hoistedDependencies (getN st nodeId).name nodeId
      reasons := mapDelete (getN st parentId).reasons (getN st nodeId).name }
    hwf (WFDeps_mapDelete (hwf parentId) _) rfl
  exact ⟨h1, h2, length_setN _ _ _⟩

/-- The hoisting loop preserves the store invariant (its writes are a
dependency delete on the parent, a well-keyed insert on the hoist root, and
a reference merge). -/
theorem hgHoistLoop_WF (ctx : HGCtx) (parentId : Nat) (unh : List Nat) :
    ∀ (ids : List Nat) (st : WStore) (newNodes : List Nat),
    WFStore st → (∀ i ∈ ids, i < st.length) →
    WFStore (hgHoistLoop ctx parentId unh ids (st, newNodes)).1
    ∧ keepsNames st (hgHoistLoop ctx parentId unh ids (st, newNodes)).1 := by
  intro ids
  induction ids with
  | nil => intro st newNodes hwf _; exact ⟨hwf, keepsNames_refl st⟩
  | cons nodeId rest ih =>
    intro st newNodes hwf hids
    have hrest0 : ∀ i ∈ rest, i < st.length :=
      fun i hi => hids i (List.mem_cons_of_mem _ hi)
    by_cases hu : setHas unh nodeId = true
    · rw [hgHoistLoop_cons_skip ctx parentId unh nodeId rest st newNodes hu]
      exact ih st newNodes hwf hrest0
    · obtain ⟨hwf1, hk1, hlen1⟩ := hglParentWrite_WF st parentId nodeId hwf
      cases hg : mapGet (getN (hglParentWrite st parentId nodeId) ctx.rootId).dependencies
          (getN (hglParentWrite st parentId nodeId) nodeId).name with
      | some hid =>
        rw [hgHoistLoop_cons_some ctx parentId unh nodeId rest st newNodes _ hid hu rfl hg]
        obtain ⟨hwf2, hk2⟩ := WF_setN hid
          { getN (hglParentWrite st parentId nodeId) hid with
            references := (getN (hglParentWrite st parentId nodeId) nodeId).references.foldl
              setAdd (getN (hglParentWrite st parentId nodeId) hid).references }
          hwf1 (hwf1 hid) rfl
        obtain ⟨hwf3, hk3⟩ := ih _ newNodes hwf2
          (fun i hi => by rw [length_setN, hlen1]; exact hrest0 i hi)
        exact ⟨hwf3, keepsNames_trans hk1 (keepsNames_trans hk2 hk3)⟩
      | none =>
        by_cases hne : (getN (hglParentWrite st parentId nodeId) ctx.rootId).ident
            ≠ (getN (hglParentWrite st parentId nodeId) nodeId).ident
        · rw [hgHoistLoop_cons_none_ne ctx parentId unh nodeId rest st newNodes _ hu rfl
            hg hne]
          obtain ⟨hwf2, hk2⟩ := WF_setN ctx.rootId
            { getN (hglParentWrite st parentId nodeId) ctx.rootId with
              dependencies := mapSet
                (getN (hglParentWrite st parentId nodeId) ctx.rootId).dependencies
                (getN (hglParentWrite st parentId nodeId) nodeId).name nodeId }
            hwf1
            (WFDeps_mapSet (hwf1 ctx.rootId) _ nodeId
              (by rw [hlen1]; exact hids nodeId (List.mem_cons_self _ _)) rfl)
            rfl
          obtain ⟨hwf3, hk3⟩ := ih _ (setAdd newNodes nodeId) hwf2
            (fun i hi => by rw [length_setN, hlen1]; exact hrest0 i hi)
          exact ⟨hwf3, keepsNames_trans hk1 (keepsNames_trans hk2 hk3)⟩
        · rw [hgHoistLoop_cons_none_eq ctx parentId unh nodeId rest st newNodes _ hu rfl
            hg hne]
          obtain ⟨hwf3, hk3⟩ := ih _ newNodes hwf1
            (fun i hi => by rw [hlen1]; exact hrest0 i hi)
          exact ⟨hwf3, keepsNames_trans hk1 hk3⟩

/-- The recursive core of `hoistGraph` preserves the store invariant. -/
theorem hgGo_WF (ctx : HGCtx) :
    ∀ (fuel : Nat) (task : HGTask) (state state' : HGState),
    hgGo ctx fuel task state = some (.ok state') →
    WFStore state.st → WFStore state'.st ∧ keepsNames state.st state'.st := by
  intro fuel
  induction fuel with
  | zero => intro task state state' h _; simp [hgGo] at h
  | succ fuel ih =>
    intro task state state' h hwf
    cases task with
    | deps nodePath locatorPath parentId =>
      by_cases hs : setHas state.seenNodes parentId = true
      · simp only [hgGo, hs, if_true, Option.some.injEq, Except.ok.injEq] at h
        subst h
        exact ⟨hwf, keepsNames_refl _⟩
      · simp only [hgGo, hs, Bool.false_eq_true, if_false] at h
        cases hg1 : getSortedRegularDependencies state.st parentId fuel with
        | none => simp only [hg1] at h; cases h
        | some sortedDeps =>
          simp only [hg1] at h
          cases hg2 : hgMarkNoLoop state.st
              (hgCollectInfos ctx state.st nodePath parentId sortedDeps).2
              (getN state.st parentId).dependencies fuel
              ((hgCollectInfos ctx state.st nodePath parentId sortedDeps).1.map Prod.fst)
              ([], (hgCollectInfos ctx state.st nodePath parentId sortedDeps).1) with
          | none => simp only [hg2] at h; cases h
          | some mid =>
            obtain ⟨unh, infos⟩ := mid
            simp only [hg2] at h
            have hpdvalid : ∀ e ∈ (getN state.st parentId).dependencies,
                e.2 < state.st.length := fun e he => ((hwf parentId).1 e he).1
            have hsorted_valid := gsrd_valid state.st parentId fuel sortedDeps hwf hg1
            have hinfos0 : ∀ p ∈ (hgCollectInfos ctx state.st nodePath parentId
                sortedDeps).1, p.1 < state.st.length :=
              fun p hp => hsorted_valid p.1
                (hgCollectInfos_keys ctx state.st nodePath parentId sortedDeps p hp)
            have hinfos : ∀ p ∈ infos, p.1 < state.st.length :=
              hgMarkNoLoop_keys state.st _ _ state.st.length hpdvalid fuel _ _ _ _ _
                hg2 hinfos0
            have hids : ∀ i ∈ infos.map Prod.fst, i < state.st.length := by
              intro i hi
              obtain ⟨p, hp, rfl⟩ := List.mem_map.mp hi
              exact hinfos p hp
            obtain ⟨hwf2, hk2⟩ := hgHoistLoop_WF ctx parentId unh (infos.map Prod.fst)
              state.st state.nextNewNodes hwf hids
            have hfin : ∀ (children : List Nat),
                hgGo ctx fuel (HGTask.children nodePath locatorPath parentId children
                  unh infos)
                  { state with
                    st := (hgHoistLoop ctx parentId unh (infos.map Prod.fst)
                      (state.st, state.nextNewNodes)).1
                    nextNewNodes := (hgHoistLoop ctx parentId unh (infos.map Prod.fst)
                      (state.st, state.nextNewNodes)).2 } = some (.ok state') →
                WFStore state'.st ∧ keepsNames state.st state'.st := by
              intro children hrec
              obtain ⟨hwf3, hk3⟩ := ih _ _ _ hrec hwf2
              exact ⟨hwf3, keepsNames_trans hk2 hk3⟩
            cases hck : ctx.options.check with
            | false =>
              simp only [hck, Bool.false_eq_true, if_false] at h
              cases hg3 : getSortedRegularDependencies
                  (hgHoistLoop ctx parentId unh (infos.map Prod.fst)
                    (state.st, state.nextNewNodes)).1 parentId fuel with
              | none => simp only [hg3] at h; cases h
              | some children =>
                simp only [hg3] at h
                exact hfin children h
            | true =>
              simp only [hck, if_true] at h
              cases hsc : selfCheck (hgHoistLoop ctx parentId unh (infos.map Prod.fst)
                  (state.st, state.nextNewNodes)).1 ctx.treeId fuel with
              | none => simp only [hsc] at h; cases h
              | some checkLog =>
                simp only [hsc] at h
                by_cases hlog : checkLog = ""
                · simp only [hlog, if_true] at h
                  cases hg3 : getSortedRegularDependencies
                      (hgHoistLoop ctx parentId unh (infos.map Prod.fst)
                        (state.st, state.nextNewNodes)).1 parentId fuel with
                  | none => simp only [hg3] at h; cases h
                  | some children =>
                    simp only [hg3] at h
                    exact hfin children h
                · simp only [hlog, if_false] at h
                  cases hdp : dumpDepTree (hgHoistLoop ctx parentId unh
                      (infos.map Prod.fst)
                      (state.st, state.nextNewNodes)).1 ctx.treeId fuel with
                  | none => simp only [hdp] at h; cases h
                  | some dump => simp only [hdp] at h; simp at h
    | children nodePath locatorPath parentId rest0 unh infos =>
      cases rest0 with
      | nil =>
        simp only [hgGo, Option.some.injEq, Except.ok.injEq] at h
        subst h
        exact ⟨hwf, keepsNames_refl _⟩
      | cons nodeId rest =>
        simp only [hgGo] at h
        by_cases hcond : (setHas unh nodeId
            && !setHas locatorPath (getN state.st nodeId).locator) = true
        · simp only [hcond, if_true] at h
          have cont : ∀ (stA : WStore), WFStore stA → keepsNames state.st stA →
              (match hgGo ctx fuel (HGTask.deps (nodePath ++ [parentId])
                  (locatorPath
                    ++ [(getN (decoupleGraphNode stA parentId nodeId).1 parentId).locator])
                  (decoupleGraphNode stA parentId nodeId).2)
                  { st := (decoupleGraphNode stA parentId nodeId).1
                    seenNodes := setAdd state.seenNodes parentId
                    nextNewNodes := state.nextNewNodes } with
               | none => none
               | some (.error e) => some (.error e)
               | some (.ok sb) =>
                 hgGo ctx fuel (HGTask.children nodePath locatorPath parentId rest unh
                   infos) { sb with seenNodes := setDelete sb.seenNodes parentId })
                = some (.ok state') →
              WFStore state'.st ∧ keepsNames state.st state'.st := by
            intro stA hwfA hkA hA
            obtain ⟨hwfD, hkD⟩ := decoupleGraphNode_WF stA parentId nodeId hwfA
            cases hrec : hgGo ctx fuel (HGTask.deps (nodePath ++ [parentId])
                (locatorPath
                  ++ [(getN (decoupleGraphNode stA parentId nodeId).1 parentId).locator])
                (decoupleGraphNode stA parentId nodeId).2)
                { st := (decoupleGraphNode stA parentId nodeId).1
                  seenNodes := setAdd state.seenNodes parentId
                  nextNewNodes := state.nextNewNodes } with
            | none => rw [hrec] at hA; cases hA
            | some r =>
              cases r with
              | error e => rw [hrec] at hA; simp at hA
              | ok sb =>
                rw [hrec] at hA
                obtain ⟨hwfB, hkB⟩ := ih _ _ _ hrec hwfD
                obtain ⟨hwfC, hkC⟩ := ih _ _ _ hA hwfB
                exact ⟨hwfC, keepsNames_trans hkA (keepsNames_trans hkD
                  (keepsNames_trans hkB hkC))⟩
          cases hmi : mapGet infos nodeId with
          | none =>
            simp only [hmi] at h
            exact cont state.st hwf (keepsNames_refl _) h
          | some i0 =>
            cases i0 with
            | yes =>
              simp only [hmi] at h
              exact cont state.st hwf (keepsNames_refl _) h
            | depends l =>
              simp only [hmi] at h
              exact cont state.st hwf (keepsNames_refl _) h
            | no r =>
              simp only [hmi] at h
              obtain ⟨hwfA, hkA⟩ := WF_setN parentId
                { getN state.st parentId with
                  reasons := mapSet (getN state.st parentId).reasons
                    (getN state.st nodeId).name r }
                hwf (hwf parentId) rfl
              exact cont _ hwfA hkA h
        · simp only [hcond, Bool.false_eq_true, if_false] at h
          exact ih _ _ _ h hwf
    | newNodes rest0 =>
      cases rest0 with
      | nil =>
        simp only [hgGo, Option.some.injEq, Except.ok.injEq] at h
        subst h
        exact ⟨hwf, keepsNames_refl _⟩
      | cons depId rest =>
        simp only [hgGo] at h
        by_cases hloc : decide ((getN state.st depId).locator
            = (getN state.st ctx.rootId).locator) = true
        · simp only [hloc, if_true] at h
          exact ih _ _ _ h hwf
        · simp only [hloc, Bool.false_eq_true, if_false] at h
          obtain ⟨hwfD, hkD⟩ := decoupleGraphNode_WF state.st ctx.rootId depId hwf
          cases hrec : hgGo ctx fuel (HGTask.deps [ctx.rootId]
              [(getN (decoupleGraphNode state.st ctx.rootId depId).1 ctx.rootId).locator]
              (decoupleGraphNode state.st ctx.rootId depId).2)
              { st := (decoupleGraphNode state.st ctx.rootId depId).1
                seenNodes := state.seenNodes
                nextNewNodes := state.nextNewNodes } with
          | none => rw [hrec] at h; cases h
          | some r =>
            cases r with
            | error e => rw [hrec] at h; simp at h
            | ok sb =>
              rw [hrec] at h
              obtain ⟨hwfB, hkB⟩ := ih _ _ _ hrec hwfD
              obtain ⟨hwfC, hkC⟩ := ih _ _ _ h hwfB
              exact ⟨hwfC, keepsNames_trans hkD (keepsNames_trans hkB hkC)⟩
    | doLoop =>
      simp only [hgGo] at h
      cases hrec : hgGo ctx fuel (HGTask.newNodes state.nextNewNodes)
          { state with nextNewNodes := [] } with
      | none => rw [hrec] at h; cases h
      | some r =>
        cases r with
        | error e => rw [hrec] at h; simp at h
        | ok sb =>
          rw [hrec] at h
          obtain ⟨hwfB, hkB⟩ := ih _ _ _ hrec hwf
          by_cases hlen : sb.nextNewNodes.length > 0
          · simp only [hlen, if_true] at h
            obtain ⟨hwfC, hkC⟩ := ih _ _ _ h hwfB
            exact ⟨hwfC, keepsNames_trans hkB hkC⟩
          · simp only [hlen, if_false] at h
            simp only [Option.some.injEq, Except.ok.injEq] at h
            subst h
            exact ⟨hwfB, hkB⟩

theorem hoistGraph_WF (st : WStore) (treeId rootId : Nat) (rootNodePath : List String)
    (hd : List (String × Nat)) (hi : List (String × String))
    (him : List (String × List String)) (options : InternalHoistOptions) (fuel : Nat)
    (st' : WStore)
    (h : hoistGraph st treeId rootId rootNodePath hd hi him options fuel = some (.ok st'))
    (hwf : WFStore st) : WFStore st' ∧ keepsNames st st' := by
  simp only [hoistGraph] at h
  cases hg : getSortedRegularDependencies st rootId fuel with
  | none => simp only [hg] at h; cases h
  | some sorted =>
    simp only [hg] at h
    cases hr : hgGo
        { treeId := treeId, rootId := rootId, rootNodePath := rootNodePath
          hoistedDependencies := hd, hoistIdents := hi, hoistIdentMap := him
          options := options } fuel HGTask.doLoop
        { st := st, seenNodes := [], nextNewNodes := sorted } with
    | none => simp only [hr] at h; cases h
    | some r =>
      cases r with
      | error e => simp only [hr] at h; simp at h
      | ok state =>
        simp only [hr, Option.some.injEq, Except.ok.injEq] at h
        subst h
        exact hgGo_WF _ _ _ _ _ hr hwf

theorem htShiftLoop_WF (treeId rootId : Nat) (rootNodePath : List String)
    (hd : List (String × Nat)) (options : InternalHoistOptions) :
    ∀ (fuel : Nat) (st : WStore) (hi : List (String × String))
      (him : List (String × List String)) (st' : WStore),
    htShiftLoop treeId rootId rootNodePath hd options fuel st hi him = some (.ok st') →
    WFStore st → WFStore st' ∧ keepsNames st st' := by
  intro fuel
  induction fuel with
  | zero => intro st hi him st' h _; simp [htShiftLoop] at h
  | succ fuel ih =>
    intro st hi him st' h hwf
    simp only [htShiftLoop] at h
    cases hg : hoistGraph st treeId rootId rootNodePath hd hi him options fuel with
    | none => simp only [hg] at h; cases h
    | some r =>
      cases r with
      | error e => simp only [hg] at h; simp at h
      | ok st1 =>
        simp only [hg] at h
        obtain ⟨hwf1, hk1⟩ := hoistGraph_WF st treeId rootId rootNodePath hd hi him
          options fuel st1 hg hwf
        split at h
        · obtain ⟨hwf2, hk2⟩ := ih st1 _ _ st' h hwf1
          exact ⟨hwf2, keepsNames_trans hk1 hk2⟩
        · simp only [Option.some.injEq, Except.ok.injEq] at h
          subst h
          exact ⟨hwf1, hk1⟩

theorem htGo_WF (treeId : Nat) (options : InternalHoistOptions) :
    ∀ (fuel : Nat) (task : HTTask) (st st' : WStore),
    htGo treeId options fuel task st = some (.ok st') →
    WFStore st → WFStore st' ∧ keepsNames st st' := by
  intro fuel
  induction fuel with
  | zero => intro task st st' h _; simp [htGo] at h
  | succ fuel ih =>
    intro task st st' h hwf
    cases task with
    | root rootId rootNodePath seenNodes =>
      by_cases hs : setHas seenNodes rootId = true
      · simp only [htGo, hs, if_true, Option.some.injEq, Except.ok.injEq] at h
        subst h
        exact ⟨hwf, keepsNames_refl _⟩
      · simp only [htGo, hs, Bool.false_eq_true, if_false] at h
        cases hpm : buildPopularityMap st rootId fuel with
        | none => simp only [hpm] at h; cases h
        | some pm =>
          simp only [hpm] at h
          cases hhd : (if rootId = treeId then some []
              else getHoistedDependencies st rootId fuel) with
          | none => simp only [hhd] at h; cases h
          | some hd =>
            simp only [hhd] at h
            cases hsl : htShiftLoop treeId rootId rootNodePath hd options fuel st
                ((getHoistIdentMap st rootId pm).map (fun e => (e.1, e.2.getD 0 "")))
                (getHoistIdentMap st rootId pm) with
            | none => simp only [hsl] at h; cases h
            | some r =>
              cases r with
              | error e => simp only [hsl] at h; simp at h
              | ok st1 =>
                simp only [hsl] at h
                obtain ⟨hwf1, hk1⟩ := htShiftLoop_WF treeId rootId rootNodePath hd
                  options fuel st _ _ st1 hsl hwf
                obtain ⟨hwf2, hk2⟩ := ih _ _ _ h hwf1
                exact ⟨hwf2, keepsNames_trans hk1 hk2⟩
    | children rootId rootNodePath processed =>
      simp only [htGo] at h
      cases hf : (getN st rootId).dependencies.find?
          (fun e => !(processed.contains e.1)) with
      | none =>
        simp only [hf, Option.some.injEq, Except.ok.injEq] at h
        subst h
        exact ⟨hwf, keepsNames_refl _⟩
      | some e =>
        simp only [hf] at h
        split at h
        · cases hrec : htGo treeId options fuel
              (HTTask.root e.2 (setAdd rootNodePath (getN st e.2).locator) []) st with
          | none => simp only [hrec] at h; cases h
          | some r =>
            cases r with
            | error er => simp only [hrec] at h; simp at h
            | ok st1 =>
              simp only [hrec] at h
              obtain ⟨hwf1, hk1⟩ := ih _ _ _ hrec hwf
              obtain ⟨hwf2, hk2⟩ := ih _ _ _ h hwf1
              exact ⟨hwf2, keepsNames_trans hk1 hk2⟩
        · exact ih _ _ _ h hwf

/-! ## The output tree: name uniqueness of `shrinkTree` -/

theorem getR_setR_ne (rst : RStore) (i j : Nat) (n : HoisterResultNode) (h : i ≠ j) :
    getR (setR rst i n) j = getR rst j := listSet_getD_ne rst i j n h

theorem getR_setR_self (rst : RStore) (i : Nat) (n : HoisterResultNode)
    (h : i < rst.length) : getR (setR rst i n) i = n := listSet_getD_self rst i n h

theorem length_setR (rst : RStore) (i : Nat) (n : HoisterResultNode) :
    (setR rst i n).length = rst.length := List.length_set rst i n

theorem getR_append_lt (rst : RStore) (n : HoisterResultNode) (j : Nat)
    (h : j < rst.length) : getR (rst ++ [n]) j = getR rst j := listAppend_getD_lt rst [n] j h

theorem getR_append_self (rst : RStore) (n : HoisterResultNode) :
    getR (rst ++ [n]) rst.length = n := listAppend_getD_self rst n

theorem getR_ge (rst : RStore) (i : Nat) (h : rst.length ≤ i) : getR rst i = default :=
  List.getD_eq_default rst default h

theorem setHas_true_iff {α : Type} [DecidableEq α] (l : List α) (a : α) :
    setHas l a = true ↔ a ∈ l := by simp [setHas]

theorem setHas_false_iff {α : Type} [DecidableEq α] (l : List α) (a : α) :
    setHas l a = false ↔ a ∉ l := by simp [setHas]

/-- The names of an output node's children. -/
def cNames (rst : RStore) (i : Nat) : List String :=
  (getR rst i).dependencies.map (fun j => (getR rst j).name)

/-- The claimed output invariant: no node of the output store has two
children with the same name. -/
def rOK (rst : RStore) : Prop := ∀ i, (cNames rst i).Nodup

/-- Every child id stored in the output is allocated. -/
def rClosed (rst : RStore) : Prop := ∀ i, ∀ j ∈ (getR rst i).dependencies, j < rst.length

theorem cNames_stable (rst rst' : RStore) (i : Nat) (L : Nat)
    (hdeps : (getR rst' i).dependencies = (getR rst i).dependencies)
    (hcl : ∀ j ∈ (getR rst i).dependencies, j < L)
    (hnames : ∀ j, j < L → (getR rst' j).name = (getR rst j).name) :
    cNames rst' i = cNames rst i := by
  unfold cNames
  rw [hdeps]
  exact List.map_eq_map_iff.mpr (fun j hj => hnames j (hcl j hj))

theorem nodup_append_singleton {α : Type} (l : List α) (a : α) (h : l.Nodup)
    (ha : a ∉ l) : (l ++ [a]).Nodup := by simp [List.nodup_append, h, ha]

/-- The result-side parent of a `shrinkTree` task. -/
def taskPR : ShrinkTask → Nat
  | ShrinkTask.node _ _ pR => pR
  | ShrinkTask.list _ _ _ pR => pR

/-- Stack hypothesis for `stGo`: the work parent is on the path, the result
parent mirrors its name, and the incoming names are fresh among the result
parent's current children. -/
def stHyp (wst : WStore) (rst : RStore) (seen : List Nat) : ShrinkTask → Prop
  | ShrinkTask.node nodeId pW pR =>
      pW ∈ seen ∧ (getR rst pR).name = (getN wst pW).name
      ∧ (getN wst nodeId).name ∉ cNames rst pR
  | ShrinkTask.list entries _peers pW pR =>
      pW ∈ seen ∧ (getR rst pR).name = (getN wst pW).name
      ∧ (entries.map Prod.fst).Nodup
      ∧ (∀ e ∈ entries, (getN wst e.2).name = e.1)
      ∧ (∀ e ∈ entries, (getN wst e.2).name ∉ cNames rst pR)

/-- Postcondition of one `stGo` task: the path is restored, existing nodes
other than the result parent are untouched, names never change, the two
store invariants hold, and the result parent gained exactly the advertised
children. -/
def stPost (wst : WStore) (task : ShrinkTask) (rst : RStore) (seen : List Nat)
    (rst' : RStore) (seen' : List Nat) : Prop :=
  seen' = seen
  ∧ rst.length ≤ rst'.length
  ∧ (∀ j, j < rst.length → ¬ j = taskPR task → getR rst' j = getR rst j)
  ∧ (∀ j, j < rst.length → (getR rst' j).name = (getR rst j).name)
  ∧ rOK rst' ∧ rClosed rst'
  ∧ (match task with
     | ShrinkTask.node nodeId _ pR =>
         cNames rst' pR = cNames rst pR ++ [(getN wst nodeId).name]
     | ShrinkTask.list entries _ _ pR => ∃ ns, cNames rst' pR = cNames rst pR ++ ns
         ∧ ∀ x ∈ ns, ∃ e ∈ entries, x = (getN wst e.2).name)

/-- The main invariant of `addNode` of `shrinkTree`. -/
theorem stGo_spec (wst : WStore) (hwf : WFStore wst) :
    ∀ (fuel : Nat) (task : ShrinkTask) (rst : RStore) (seen : List Nat)
      (rst' : RStore) (seen' : List Nat),
    stGo wst fuel task (rst, seen) = some (rst', seen') →
    rOK rst → rClosed rst → taskPR task < rst.length →
    stHyp wst rst seen task →
    stPost wst task rst seen rst' seen' := by
  intro fuel
  induction fuel with
  | zero => intro task rst seen rst' seen' h _ _ _ _; simp [stGo] at h
  | succ fuel ih =>
    intro task rst seen rst' seen' h hok hcl hpr hhyp
    cases task with
    | node nodeId pW pR =>
      obtain ⟨hseen, hlink, hnew⟩ := hhyp
      have hpr' : pR < rst.length := hpr
      simp only [stGo] at h
      by_cases hself : pW = nodeId
      · subst hself
        have hisSeen : setHas seen pW = true := (setHas_true_iff seen pW).mpr hseen
        simp only [eq_self_iff_true, if_true, hisSeen] at h
        have hnotmem : pR ∉ (getR rst pR).dependencies := by
          intro hmem
          apply hnew
          rw [← hlink]
          exact List.mem_map_of_mem _ hmem
        rw [setAdd_of_not_mem _ _ hnotmem] at h
        set rst2 := setR rst pR
          { getR rst pR with dependencies := (getR rst pR).dependencies ++ [pR] } with hrst2
        simp only [Option.some.injEq, Prod.mk.injEq] at h
        obtain ⟨h1, h2⟩ := h
        subst h1
        subst h2
        have hlen2 : rst2.length = rst.length := by rw [hrst2, length_setR]
        have hframe : ∀ j, j < rst.length → ¬ j = pR → getR rst2 j = getR rst j := by
          intro j hj hne
          rw [hrst2, getR_setR_ne _ _ _ _ (fun hEq => hne hEq.symm)]
        have hpr2 : getR rst2 pR
            = { getR rst pR with dependencies := (getR rst pR).dependencies ++ [pR] } := by
          rw [hrst2, getR_setR_self _ _ _ hpr']
        have hnames : ∀ j, j < rst.length → (getR rst2 j).name = (getR rst j).name := by
          intro j hj
          by_cases hje : j = pR
          · subst hje
            rw [hpr2]
          · rw [hframe j hj hje]
        have hcn2 : cNames rst2 pR = cNames rst pR ++ [(getN wst pW).name] := by
          unfold cNames
          rw [hpr2, List.map_append]
          congr 1
          · exact List.map_eq_map_iff.mpr (fun j hj => hnames j (hcl pR j hj))
          · simp only [List.map_cons, List.map_nil]
            rw [hnames pR hpr', hlink]
        have hok2 : rOK rst2 := by
          intro i
          by_cases hile : i < rst.length
          · by_cases hip : i = pR
            · subst hip
              rw [hcn2]
              exact nodup_append_singleton _ _ (hok i) hnew
            · rw [cNames_stable rst rst2 i rst.length (by rw [hframe i hile hip])
                (hcl i) hnames]
              exact hok i
          · unfold cNames
            rw [getR_ge rst2 i (by omega)]
            rw [show (default : HoisterResultNode).dependencies = [] from rfl]
            exact List.nodup_nil
        have hcl2 : rClosed rst2 := by
          intro i j hj
          by_cases hile : i < rst.length
          · by_cases hip : i = pR
            · subst hip
              rw [hpr2] at hj
              rcases List.mem_append.mp hj with hj | hj
              · have := hcl i j hj
                omega
              · rw [List.mem_singleton.mp hj]
                omega
            · rw [hframe i hile hip] at hj
              have := hcl i j hj
              omega
          · rw [getR_ge rst2 i (by omega)] at hj
            rw [show (default : HoisterResultNode).dependencies = [] from rfl] at hj
            cases hj
        exact ⟨rfl, le_of_eq hlen2.symm, hframe, hnames, hok2, hcl2, hcn2⟩
      · simp only [hself, if_false, allocR] at h
        set nn : HoisterResultNode :=
          { name := (getN wst nodeId).name
            identName := getIdentName (getN wst nodeId).locator
            references := (getN wst nodeId).references
            dependencies := [] } with hnn
        have frameB : ∀ j, j < rst.length → getR (rst ++ [nn]) j = getR rst j :=
          fun j hj => getR_append_lt rst nn j hj
        have hcidB : getR (rst ++ [nn]) rst.length = nn := getR_append_self rst nn
        have hprB : getR (rst ++ [nn]) pR = getR rst pR := frameB pR hpr'
        have hnotmem : rst.length ∉ (getR (rst ++ [nn]) pR).dependencies := by
          rw [hprB]
          intro hmem
          exact absurd (hcl pR _ hmem) (lt_irrefl _)
        have hadd : setAdd (getR (rst ++ [nn]) pR).dependencies rst.length
            = (getR rst pR).dependencies ++ [rst.length] := by
          rw [setAdd_of_not_mem _ _ hnotmem, hprB]
        rw [hadd] at h
        set rst2 := setR (rst ++ [nn]) pR
          { getR (rst ++ [nn]) pR with
            dependencies := (getR rst pR).dependencies ++ [rst.length] } with hrst2
        have hlen2 : rst2.length = rst.length + 1 := by
          rw [hrst2, length_setR]
          simp
        have hprne : pR ≠ rst.length := ne_of_lt hpr'
        have hpr2 : getR rst2 pR
            = { getR rst pR with
                dependencies := (getR rst pR).dependencies ++ [rst.length] } := by
          rw [hrst2, getR_setR_self _ _ _ (by simp; omega), hprB]
        have hcid2 : getR rst2 rst.length = nn := by
          rw [hrst2, getR_setR_ne _ _ _ _ hprne, hcidB]
        have hframe : ∀ j, j < rst.length → ¬ j = pR → getR rst2 j = getR rst j := by
          intro j hj hne
          rw [hrst2, getR_setR_ne _ _ _ _ (fun hEq => hne hEq.symm), frameB j hj]
        have hnames : ∀ j, j < rst.length → (getR rst2 j).name = (getR rst j).name := by
          intro j hj
          by_cases hje : j = pR
          · subst hje
            rw [hpr2]
          · rw [hframe j hj hje]
        have hcn2 : cNames rst2 pR = cNames rst pR ++ [(getN wst nodeId).name] := by
          unfold cNames
          rw [hpr2, List.map_append]
          congr 1
          · exact List.map_eq_map_iff.mpr (fun j hj => hnames j (hcl pR j hj))
          · simp only [List.map_cons, List.map_nil]
            rw [hcid2]
        have hcnil : cNames rst2 rst.length = [] := by
          unfold cNames
          rw [hcid2, hnn]
          rfl
        have hok2 : rOK rst2 := by
          intro i
          by_cases hile : i < rst.length
          · by_cases hip : i = pR
            · subst hip
              rw [hcn2]
              exact nodup_append_singleton _ _ (hok i) hnew
            · rw [cNames_stable rst rst2 i rst.length (by rw [hframe i hile hip])
                (hcl i) hnames]
              exact hok i
          · by_cases hie : i = rst.length
            · rw [hie, hcnil]
              exact List.nodup_nil
            · unfold cNames
              rw [getR_ge rst2 i (by omega)]
              rw [show (default : HoisterResultNode).dependencies = [] from rfl]
              exact List.nodup_nil
        have hcl2 : rClosed rst2 := by
          intro i j hj
          by_cases hile : i < rst.length
          · by_cases hip : i = pR
            · subst hip
              rw [hpr2] at hj
              rcases List.mem_append.mp hj with hj | hj
              · have := hcl i j hj
                omega
              · rw [List.mem_singleton.mp hj]
                omega
            · rw [hframe i hile hip] at hj
              have := hcl i j hj
              omega
          · by_cases hie : i = rst.length
            · rw [hie, hcid2, hnn] at hj
              cases hj
            · rw [getR_ge rst2 i (by omega)] at hj
              rw [show (default : HoisterResultNode).dependencies = [] from rfl] at hj
              cases hj
        by_cases hisSeen : setHas seen nodeId = true
        · simp only [hisSeen, if_true, Option.some.injEq, Prod.mk.injEq] at h
          obtain ⟨h1, h2⟩ := h
          subst h1
          subst h2
          exact ⟨rfl, by omega, hframe, hnames, hok2, hcl2, hcn2⟩
        · simp only [hisSeen, Bool.false_eq_true, if_false] at h
          have hnotin : nodeId ∉ seen := by
            intro hmem
            exact hisSeen ((setHas_true_iff seen nodeId).mpr hmem)
          cases hrec : stGo wst fuel (ShrinkTask.list (getN wst nodeId).dependencies
              (getN wst nodeId).peerNames nodeId rst.length)
              (rst2, setAdd seen nodeId) with
          | none => rw [hrec] at h; cases h
          | some mid =>
            obtain ⟨rst3, seen2⟩ := mid
            rw [hrec] at h
            simp only [Option.some.injEq, Prod.mk.injEq] at h
            obtain ⟨h1, h2⟩ := h
            subst h1
            have post := ih _ _ _ _ _ hrec hok2 hcl2
              (by show rst.length < rst2.length; omega)
              ⟨(mem_setAdd seen nodeId nodeId).mpr (Or.inr rfl),
               by rw [hcid2],
               (hwf nodeId).2,
               fun e he => ((hwf nodeId).1 e he).2,
               fun e he => by rw [hcnil]; exact List.not_mem_nil _⟩
            obtain ⟨hs3, hl3, hf3, hn3, ho3, hc3, ns3, hcn3, hmem3⟩ := post
            refine ⟨?_, by omega, ?_, ?_, ho3, hc3, ?_⟩
            · rw [← h2, hs3, setDelete_setAdd _ _ hnotin]
            · intro j hj hne
              rw [hf3 j (by omega) (by show ¬ j = rst.length; omega),
                hframe j hj hne]
            · intro j hj
              rw [hn3 j (by omega), hnames j hj]
            · show cNames rst3 pR = cNames rst pR ++ [(getN wst nodeId).name]
              have hfr : getR rst3 pR = getR rst2 pR :=
                hf3 pR (by omega) (by show ¬ pR = rst.length; omega)
              rw [cNames_stable rst2 rst3 pR rst2.length (by rw [hfr]) (hcl2 pR) hn3,
                hcn2]
    | list entries peers pW pR =>
      obtain ⟨hseen, hlink, hknodup, hkname, hdisj⟩ := hhyp
      have hpr' : pR < rst.length := hpr
      cases entries with
      | nil =>
        simp only [stGo, Option.some.injEq, Prod.mk.injEq] at h
        obtain ⟨h1, h2⟩ := h
        subst h1
        subst h2
        exact ⟨rfl, le_refl _, fun j _ _ => rfl, fun j _ => rfl, hok, hcl,
          ⟨[], (List.append_nil _).symm, fun x hx => absurd hx (List.not_mem_nil x)⟩⟩
      | cons e rest =>
        simp only [stGo] at h
        by_cases hp : setHas peers (getN wst e.2).name = true
        · simp only [hp, if_true] at h
          have post := ih _ _ _ _ _ h hok hcl hpr'
            ⟨hseen, hlink, (List.nodup_cons.mp hknodup).2,
             fun e' he' => hkname e' (List.mem_cons_of_mem _ he'),
             fun e' he' => hdisj e' (List.mem_cons_of_mem _ he')⟩
          obtain ⟨hs2, hl2, hf2, hn2, ho2, hc2, ns2, hcn2, hmem2⟩ := post
          refine ⟨hs2, hl2, hf2, hn2, ho2, hc2, ns2, hcn2, fun x hx => ?_⟩
          obtain ⟨e', he', hx'⟩ := hmem2 x hx
          exact ⟨e', List.mem_cons_of_mem _ he', hx'⟩
        · simp only [hp, Bool.false_eq_true, if_false] at h
          cases hm : stGo wst fuel (ShrinkTask.node e.2 pW pR) (rst, seen) with
          | none => rw [hm] at h; cases h
          | some mid =>
            obtain ⟨rst1, seen1⟩ := mid
            rw [hm] at h
            have post1 := ih _ _ _ _ _ hm hok hcl hpr'
              ⟨hseen, hlink, hdisj e (List.mem_cons_self _ _)⟩
            obtain ⟨hs1, hl1, hf1, hn1, ho1, hc1, hcn1⟩ := post1
            subst hs1
            have hheadkey : (getN wst e.2).name = e.1 := hkname e (List.mem_cons_self _ _)
            have hdisj1 : ∀ e' ∈ rest, (getN wst e'.2).name ∉ cNames rst1 pR := by
              intro e' he' hmem
              rw [hcn1] at hmem
              rcases List.mem_append.mp hmem with hmem | hmem
              · exact hdisj e' (List.mem_cons_of_mem _ he') hmem
              · have hxe : (getN wst e'.2).name = (getN wst e.2).name :=
                  List.mem_singleton.mp hmem
                have hkey' : (getN wst e'.2).name = e'.1 :=
                  hkname e' (List.mem_cons_of_mem _ he')
                have : e.1 ∈ rest.map Prod.fst := by
                  rw [← hheadkey, ← hxe, hkey']
                  exact List.mem_map_of_mem _ he'
                exact (List.nodup_cons.mp hknodup).1 this
            have post2 := ih _ _ _ _ _ h ho1 hc1 (lt_of_lt_of_le hpr' hl1)
              ⟨hseen, (hn1 pR hpr').trans hlink, (List.nodup_cons.mp hknodup).2,
               fun e' he' => hkname e' (List.mem_cons_of_mem _ he'), hdisj1⟩
            obtain ⟨hs2, hl2, hf2, hn2, ho2, hc2, ns2, hcn2, hmem2⟩ := post2
            refine ⟨hs2, le_trans hl1 hl2, ?_, ?_, ho2, hc2,
              ⟨(getN wst e.2).name :: ns2, ?_, ?_⟩⟩
            · intro j hj hne
              rw [hf2 j (lt_of_lt_of_le hj hl1) hne, hf1 j hj hne]
            · intro j hj
              rw [hn2 j (lt_of_lt_of_le hj hl1), hn1 j hj]
            · rw [hcn2, hcn1, List.append_assoc, List.singleton_append]
            · intro x hx
              rcases List.mem_cons.mp hx with rfl | hx
              · exact ⟨e, List.mem_cons_self _ _, rfl⟩
              · obtain ⟨e', he', hx'⟩ := hmem2 x hx
                exact ⟨e', List.mem_cons_of_mem _ he', hx'⟩

theorem optionBind_some {A B : Type} (a : A) (g : A → Option B) :
    (do let x ← (some a : Option A); g x) = g a := rfl

theorem shrink_fold_none (wst : WStore) (treeId fuel : Nat) (l : List (String × Nat)) :
    l.foldl (fun (acc : Option (RStore × List Nat)) e => do
      let acc ← acc
      stGo wst fuel (ShrinkTask.node e.2 treeId 0) acc) none = none := by
  induction l with
  | nil => rfl
  | cons e rest ih => simpa using ih

/-- Invariant of the top-level loop of `shrinkTree`. -/
theorem shrink_fold_inv (wst : WStore) (hwf : WFStore wst) (treeId fuel : Nat) :
    ∀ (l : List (String × Nat)) (rst : RStore) (seen : List Nat),
    rOK rst → rClosed rst → 0 < rst.length →
    (getR rst 0).name = (getN wst treeId).name →
    (∀ e ∈ l, (getN wst e.2).name = e.1) → (l.map Prod.fst).Nodup →
    (∀ e ∈ l, (getN wst e.2).name ∉ cNames rst 0) →
    treeId ∈ seen →
    ∀ res, l.foldl (fun (acc : Option (RStore × List Nat)) e => do
        let acc ← acc
        stGo wst fuel (ShrinkTask.node e.2 treeId 0) acc) (some (rst, seen)) = some res →
    rOK res.1 := by
  intro l
  induction l with
  | nil =>
    intro rst seen hok _ _ _ _ _ _ _ res h
    simp only [List.foldl_nil, Option.some.injEq] at h
    rw [← h]
    exact hok
  | cons e rest ihl =>
    intro rst seen hok hcl hlen hlink hkname hknodup hdisj hseen res h
    rw [List.foldl_cons] at h
    rw [optionBind_some] at h
    cases hm : stGo wst fuel (ShrinkTask.node e.2 treeId 0) (rst, seen) with
    | none =>
      rw [hm] at h
      rw [shrink_fold_none] at h
      cases h
    | some mid =>
      obtain ⟨rst1, seen1⟩ := mid
      rw [hm] at h
      have post := stGo_spec wst hwf fuel _ rst seen rst1 seen1 hm hok hcl hlen
        ⟨hseen, hlink, hdisj e (List.mem_cons_self _ _)⟩
      obtain ⟨hs1, hl1, _, hn1, ho1, hc1, hcn1⟩ := post
      subst hs1
      have hheadkey : (getN wst e.2).name = e.1 := hkname e (List.mem_cons_self _ _)
      refine ihl rst1 seen1 ho1 hc1 (by omega) ((hn1 0 hlen).trans hlink)
        (fun e' he' => hkname e' (List.mem_cons_of_mem _ he'))
        (List.nodup_cons.mp hknodup).2 ?_ hseen res h
      intro e' he' hmem
      rw [hcn1] at hmem
      rcases List.mem_append.mp hmem with hmem | hmem
      · exact hdisj e' (List.mem_cons_of_mem _ he') hmem
      · have hxe : (getN wst e'.2).name = (getN wst e.2).name :=
          List.mem_singleton.mp hmem
        have hkey' : (getN wst e'.2).name = e'.1 :=
          hkname e' (List.mem_cons_of_mem _ he')
        have : e.1 ∈ rest.map Prod.fst := by
          rw [← hheadkey, ← hxe, hkey']
          exact List.mem_map_of_mem _ he'
        exact (List.nodup_cons.mp hknodup).1 this

/-- Every successful `shrinkTree` output satisfies name uniqueness, given a
well-formed work store. -/
theorem rOK_singleton (n : HoisterResultNode) (h : n.dependencies = []) : rOK [n] := by
  intro i
  cases i with
  | zero =>
    unfold cNames
    rw [show getR [n] 0 = n from rfl, h]
    exact List.nodup_nil
  | succ m =>
    unfold cNames
    rw [getR_ge _ _ (by simp)]
    rw [show (default : HoisterResultNode).dependencies = [] from rfl]
    exact List.nodup_nil

theorem rClosed_singleton (n : HoisterResultNode) (h : n.dependencies = []) :
    rClosed [n] := by
  intro i j hj
  cases i with
  | zero =>
    rw [show getR [n] 0 = n from rfl, h] at hj
    cases hj
  | succ m =>
    rw [getR_ge _ _ (by simp)] at hj
    rw [show (default : HoisterResultNode).dependencies = [] from rfl] at hj
    cases hj

/-- Every successful `shrinkTree` output satisfies name uniqueness, given a
well-formed work store. -/
theorem shrinkTree_ok (wst : WStore) (treeId fuel : Nat) (rst : RStore)
    (hwf : WFStore wst) (h : shrinkTree wst treeId fuel = some rst) : rOK rst := by
  unfold shrinkTree at h
  simp only [allocR, List.nil_append, List.length_nil] at h
  cases hl : (getN wst treeId).dependencies.foldl
      (fun (acc : Option (RStore × List Nat)) e => do
        let acc ← acc
        stGo wst fuel (ShrinkTask.node e.2 treeId 0) acc)
      (some ([{ name := (getN wst treeId).name
                identName := getIdentName (getN wst treeId).locator
                references := (getN wst treeId).references
                dependencies := [] }], [treeId])) with
  | none => rw [hl] at h; cases h
  | some res =>
    obtain ⟨rstf, seenf⟩ := res
    rw [hl] at h
    simp only [Option.some.injEq] at h
    subst h
    exact shrink_fold_inv wst hwf treeId fuel (getN wst treeId).dependencies
      [{ name := (getN wst treeId).name
         identName := getIdentName (getN wst treeId).locator
         references := (getN wst treeId).references
         dependencies := [] }] [treeId]
      (rOK_singleton _ rfl) (rClosed_singleton _ rfl) (by simp) rfl
      (fun e he => ((hwf treeId).1 e he).2) (hwf treeId).2
      (fun e he => List.not_mem_nil _)
      (List.mem_singleton.mpr rfl) (rstf, seenf) hl

/-- A failure (`none` fuel exhaustion or a thrown check error) constrains
nothing; a success must satisfy the output name-uniqueness invariant. -/
def resultOk : Option (Except String RStore) → Prop
  | some (.ok rst) => rOK rst
  | _ => True


/-! ## Concrete inputs used by the claims -/

/-- Scenario S5: `. → {a@1, b@1}` where `a@1` peer-depends on `b` and lists
the (shared) node `b@1` in its dependencies, and symmetrically for `b@1`. -/
def c3Forest : InForest := [
  { name := ".", identName := ".", reference := "workspace:.", dependencies := [1, 2], peerNames := [] },
  { name := "a", identName := "a", reference := "1", dependencies := [2], peerNames := ["b"] },
  { name := "b", identName := "b", reference := "1", dependencies := [1], peerNames := ["a"] }]

/-- A five-package graph on which hoisting breaks its own require promise:
`.` depends on `c@1`; `c@1` depends on `a → b@2` (an aliased dependency)
and on `d@1`; `d@1` depends on `c@1`, on `d → b@2` (aliased) and on
`a@1`; hoisting first lifts `c`'s `a → b@2` to the root, then, recursing
into the nested hoist root `b@2`, lifts `a@1` into it, shadowing the
already-hoisted `b@2` for the copy of `c@1` that sits below it. -/
def c1Forest : InForest := [
  { name := ".", identName := ".", reference := "workspace:.", dependencies := [2], peerNames := [] },
  { name := "a", identName := "b", reference := "2", dependencies := [], peerNames := [] },
  { name := "c", identName := "c", reference := "1", dependencies := [1, 5], peerNames := [] },
  { name := "d", identName := "b", reference := "2", dependencies := [5], peerNames := [] },
  { name := "a", identName := "a", reference := "1", dependencies := [], peerNames := [] },
  { name := "d", identName := "d", reference := "1", dependencies := [2, 3, 4], peerNames := [] }]

/-- A work store whose root (id 0) has the single direct dependency
`a@1`. -/
def c4St : WStore := [
  { name := ".", references := ["workspace:."], ident := ".@workspace:.", locator := ".@workspace:.",
    dependencies := [("a", 1)], originalDependencies := [("a", 1)],
    hoistedDependencies := [], peerNames := [], decoupled := true, reasons := [] },
  { name := "a", references := ["1"], ident := "a@1", locator := "a@1",
    dependencies := [], originalDependencies := [],
    hoistedDependencies := [], peerNames := [], decoupled := true, reasons := [] }]

/-- A popularity map offering a second ident `a@2` for the name `a`. -/
def c4Pm : List (String × List String) := [("a@a@2", ["p@1"])]

/-- A work store whose node 0 has two dependencies `a@1` and `b@1` that
peer-depend on each other. -/
def c6St : WStore := [
  { name := ".", references := ["workspace:."], ident := ".@workspace:.", locator := ".@workspace:.",
    dependencies := [("a", 1), ("b", 2)], originalDependencies := [("a", 1), ("b", 2)],
    hoistedDependencies := [], peerNames := [], decoupled := true, reasons := [] },
  { name := "a", references := ["1"], ident := "a@1", locator := "a@1",
    dependencies := [], originalDependencies := [],
    hoistedDependencies := [], peerNames := ["b"], decoupled := true, reasons := [] },
  { name := "b", references := ["1"], ident := "b@1", locator := "b@1",
    dependencies := [], originalDependencies := [],
    hoistedDependencies := [], peerNames := ["a"], decoupled := true, reasons := [] }]

/-- A work store whose node 0 has the two dependencies `a@1` and `b@1`
where only `a@1` peer-depends on `b` (an acyclic sibling peer relation),
used to witness the amended ordering claim. -/
def c6WSt : WStore := [
  { name := ".", references := ["workspace:."], ident := ".@workspace:.", locator := ".@workspace:.",
    dependencies := [("a", 1), ("b", 2)], originalDependencies := [("a", 1), ("b", 2)],
    hoistedDependencies := [], peerNames := [], decoupled := true, reasons := [] },
  { name := "a", references := ["1"], ident := "a@1", locator := "a@1",
    dependencies := [], originalDependencies := [],
    hoistedDependencies := [], peerNames := ["b"], decoupled := true, reasons := [] },
  { name := "b", references := ["1"], ident := "b@1", locator := "b@1",
    dependencies := [], originalDependencies := [],
    hoistedDependencies := [], peerNames := [], decoupled := true, reasons := [] }]

/-- The only sibling peer edge of `c6WSt` is `a@1 → b@1`. -/
theorem c6WSt_edge (d p : Nat) (h : sEdge c6WSt (getN c6WSt 0) d p) : d = 1 ∧ p = 2 := by
  obtain ⟨pn, hpn, hfl, hget⟩ := h
  match d with
  | 0 => simp [c6WSt, getN, WStore] at hpn
  | 1 =>
    have hb : pn = "b" := by simpa [c6WSt, getN] using hpn
    subst hb
    refine ⟨rfl, ?_⟩
    have h2 : mapGet (getN c6WSt 0).dependencies "b" = some 2 := by rfl
    rw [h2] at hget
    injection hget with hget
    exact hget.symm
  | 2 => simp [c6WSt, getN] at hpn
  | (n + 3) =>
    have hd : getN c6WSt (n + 3) = default := by
      simp [getN, List.getD_eq_default, c6WSt]
    rw [hd] at hpn
    rw [show (default : WorkNode).peerNames = [] from rfl] at hpn
    cases hpn

/-- The sibling peer relation of `c6WSt` has no cycle. -/
theorem c6WSt_acyclic : ∀ x, ¬ Relation.TransGen (sEdge c6WSt (getN c6WSt 0)) x x := by
  have key : ∀ a b, Relation.TransGen (sEdge c6WSt (getN c6WSt 0)) a b → a = 1 ∧ b = 2 := by
    intro a b h
    induction h with
    | single he => exact c6WSt_edge _ _ he
    | tail _ he ih =>
      obtain ⟨h1, h2⟩ := c6WSt_edge _ _ he
      omega
  intro x h
  obtain ⟨h1, h2⟩ := key x x h
  omega

/-- A work store whose root (id 0) lists its own name `a` among its peer
names (the input type permits this: `peerNames` is any subset of the
dependency names, and a dependency may be aliased to the parent's own
name). -/
def c10St : WStore := [
  { name := "a", references := ["1"], ident := "a@1", locator := "a@1",
    dependencies := [("a", 1)], originalDependencies := [("a", 1)],
    hoistedDependencies := [], peerNames := ["a"], decoupled := true, reasons := [] },
  { name := "a", references := ["2"], ident := "a@2", locator := "a@2",
    dependencies := [], originalDependencies := [],
    hoistedDependencies := [], peerNames := [], decoupled := true, reasons := [] }]

/-! ## Claims -/

/-- C3 (confirmed).  Cyclic peer pair (scenario S5): for the input
`c3Forest` — root `.` with exactly the two dependencies `a@1` and `b@1`,
where `a@1` peer-depends on name `b` and lists `b@1` in its dependencies
and `b@1` peer-depends on name `a` and lists `a@1` in its dependencies —
`hoist` succeeds and returns the output store whose root (id 0) has exactly
the children `a@1` (id 1) and `b@1` (id 2), and neither `a` nor `b` retains
a nested copy of the other (both output dependency sets are empty). -/
theorem claim3_cyclic_peer_pair :
    hoist c3Forest 0 {} none 200 = some (Except.ok
      [{ name := ".", identName := ".", references := ["workspace:."], dependencies := [1, 2] },
       { name := "a", identName := "a", references := ["1"], dependencies := [] },
       { name := "b", identName := "b", references := ["1"], dependencies := [] }]) := by
  rfl

/-- C1 (code bug).  Require preservation fails on `c1Forest`: with
`debugLevel = 1` the self-check after hoisting reports a broken require
promise (so `hoist` throws, embedded as `Except.error`), while the same
input hoists without error in silent mode; the third conjunct pins down the
self-check log on the hoisted work tree: the copy of `c@1` reached at
`.→d@1→b@2→c@1` originally depended on `a` with ident `b@2` but resolves
`a` to ident `a@1` after hoisting. -/
theorem claim1_require_preservation_code_bug :
    (hoist c1Forest 0 { check := none, debugLevel := some 1 } none 700).map Except.isOk
      = some false
    ∧ (hoist c1Forest 0 {} none 700).map Except.isOk = some true
    ∧ ((cloneTree c1Forest 0 700).bind (fun p =>
        match hoistTo 700 p.1 p.2 p.2 [(getN p.1 p.2).locator]
            { check := false, debugLevel := -1 } [] with
        | some (Except.ok st) => selfCheck st p.2 700
        | _ => none))
      = some ".→d@1→b@2→c@1 - broken require promise for a: expected b@2, but found: a@1" := by
  refine ⟨by rfl, by rfl, by rfl⟩

/-- C5 (corrected), counterexample.  The claim says a caller-supplied
`debugLevel` of `0` selects timing output without consulting the
environment; but the source computes
`opts.debugLevel || Number(process.env.NM_DEBUG_LEVEL || -1)` and the
JavaScript `||` treats `0` as falsy: with `debugLevel = 0` and the variable
unset the effective level is `-1`, and with the variable set to `"5"` it is
`5` — never `0`. -/
theorem claim5_debug_level_zero_cx :
    hoistDebugLevel (some 0) none = -1 ∧ hoistDebugLevel (some 0) (some "5") = 5 := by
  exact ⟨by decide, by rfl⟩

/-- C5 (corrected), amended claim: the effective debug level equals
`opts.debugLevel` whenever the caller supplies a *nonzero* value; a
supplied `0` behaves exactly like an absent `debugLevel` (the environment
variable is consulted), and when `debugLevel` is absent and the variable is
unset the level defaults to `-1`. -/
theorem claim5_debug_level_default (d : Int) (env : Option String) :
    (d ≠ 0 → hoistDebugLevel (some d) env = d)
    ∧ hoistDebugLevel (some 0) env = hoistDebugLevel none env
    ∧ hoistDebugLevel none none = -1 := by
  refine ⟨fun hd => ?_, by simp [hoistDebugLevel], rfl⟩
  simp [hoistDebugLevel, hd]

/-- Witness for `claim5_debug_level_default` at `d = 2`, `env = none`. -/
theorem claim5_debug_level_default_witness :
    hoistDebugLevel (some 2) none = 2 :=
  (claim5_debug_level_default 2 none).1 (by decide)

/-- C8 (confirmed).  Determinism: the embedding of `hoist` is a pure
function of the input forest, the options, the environment and the fuel —
the source consults no other state (`Map`/`Set` iteration order is
deterministic and the only environment access is the debug variable, which
is an explicit argument here) — so two calls on the same input produce
equal (in particular structurally isomorphic) outputs. -/
theorem claim8_determinism (forest : InForest) (rootId : Nat) (opts : HoistOptions)
    (env : Option String) (fuel : Nat) :
    hoist forest rootId opts env fuel = hoist forest rootId opts env fuel := rfl

/-- C4 (corrected), counterexample.  The claim says `getHoistIdentMap` maps
the name of each current direct non-peer dependency `D` of the root to
exactly the one-element list `[D.ident]` and that the popularity walk never
appends to such an entry; but the source's walk pushes every ident not yet
present regardless of pinning: with root `.` having the single direct
dependency `a@1` and a popularity key `a@a@2`, the entry for `a` becomes
`["a@1", "a@2"]`, not `["a@1"]`. -/
theorem claim4_ident_map_pinned_cx :
    mapGet (getHoistIdentMap c4St 0 c4Pm) "a" = some ["a@1", "a@2"]
    ∧ ¬ mapGet (getHoistIdentMap c4St 0 c4Pm) "a" = some [(getN c4St 1).ident] := by
  exact ⟨by rfl, by decide⟩

/-- C4 (corrected), amended claim: for every hoist root and popularity map
(assuming, as holds of every store the algorithm builds, that no two direct
dependency values share a name), the identMap entry of each direct
dependency `D` whose name is not in the root's peer names *starts* with
`D.ident` — the pinned ident always remains the most-preferred candidate —
but the popularity walk may append further candidate idents behind it. -/
theorem claim4_ident_map_pinned_head (st : WStore) (rootId : Nat)
    (pm : List (String × List String))
    (hnodup : (((getN st rootId).dependencies).map (fun e => (getN st e.2).name)).Nodup)
    (e : String × Nat) (he : e ∈ (getN st rootId).dependencies)
    (hpeer : setHas (getN st rootId).peerNames (getN st e.2).name = false) :
    ∃ l, mapGet (getHoistIdentMap st rootId pm) (getN st e.2).name
      = some ((getN st e.2).ident :: l) := by
  unfold getHoistIdentMap
  exact ghimPopFold_head (getN st rootId) (sortPopKeys pm) _ _ _ []
    (ghimDepFold_mem st (getN st rootId) _ _ hnodup e he hpeer)

/-- Witness for `claim4_ident_map_pinned_head` on `c4St` (the walk appends
`a@2`, so the resulting list is `["a@1", "a@2"]` with the pinned head). -/
theorem claim4_ident_map_pinned_head_witness :
    ∃ l, mapGet (getHoistIdentMap c4St 0 c4Pm) (getN c4St 1).name
      = some ((getN c4St 1).ident :: l) :=
  claim4_ident_map_pinned_head c4St 0 c4Pm (by decide) ("a", 1) (by decide) (by decide)

/-- C6 (corrected), counterexample.  On the store `c6St`, whose root has
the two non-peer dependencies `a@1` (id 1) and `b@1` (id 2) that mutually
peer-depend on each other, `getSortedRegularDependencies` returns
`[b@1, a@1]`; `b@1` peer-depends on the name `a` of the other returned
dependency `a@1`, yet `a@1` appears after it, so the ordering the claim
asserts fails (the DFS cannot order a peer cycle). -/
theorem claim6_sibling_peer_ordering_cx :
    getSortedRegularDependencies c6St 0 20 = some [2, 1]
    ∧ ¬ peerOrderOK c6St [2, 1] := by
  refine ⟨rfl, fun h => ?_⟩
  exact absurd (h 2 (by decide) 1 (by decide) (by decide) (by decide)) (by decide)

/-- C6 (corrected), amended claim: for every node whose dependency map is
well formed (each entry's key is the name of the node it maps to, and the
keys are pairwise distinct) and whose sibling peer relation is acyclic,
`getSortedRegularDependencies` returns exactly the direct dependencies
whose name is not among the node's peer names, without duplicates, and
whenever a returned dependency peer-depends on the name of another returned
dependency, the latter appears strictly earlier; on a peer cycle (see the
counterexample) the ordering clause fails. -/
theorem claim6_sorted_regular_dependencies (st : WStore) (nodeId fuel : Nat) (l : List Nat)
    (hkeys : ∀ e ∈ (getN st nodeId).dependencies, (getN st e.2).name = e.1)
    (hknodup : (((getN st nodeId).dependencies).map Prod.fst).Nodup)
    (hrun : getSortedRegularDependencies st nodeId fuel = some l)
    (hacyc : ∀ x, ¬ Relation.TransGen (sEdge st (getN st nodeId)) x x) :
    (∀ x, x ∈ l ↔ goodDep st (getN st nodeId) x) ∧ l.Nodup ∧ peerOrderOK st l := by
  simp only [getSortedRegularDependencies] at hrun
  refine ⟨fun x => ⟨fun hx => ?_, fun hg => ?_⟩, ?_, ?_⟩
  · rcases gsrdOuter_elems st (getN st nodeId) hkeys fuel (getN st nodeId).dependencies
      [] l hrun (fun e he => he) x hx with h0 | hg
    · cases h0
    · exact hg
  · obtain ⟨⟨e, he, hex⟩, hfl⟩ := hg
    have := gsrdOuter_complete st (getN st nodeId) fuel (getN st nodeId).dependencies
      [] l hrun e he (by rw [hex]; exact hfl)
    rwa [hex] at this
  · exact gsrdOuter_nodup st (getN st nodeId) fuel (getN st nodeId).dependencies
      [] l hrun List.nodup_nil
  · have hord : accOrdered st (getN st nodeId) l :=
      gsrdOuter_ordered st (getN st nodeId) fuel (getN st nodeId).dependencies
        [] l hrun (fun d hd => absurd hd (List.not_mem_nil d))
    intro d hd p hp _ hname
    rcases gsrdOuter_elems st (getN st nodeId) hkeys fuel (getN st nodeId).dependencies
      [] l hrun (fun e he => he) p hp with h0 | hg
    · cases h0
    · obtain ⟨⟨⟨k, v⟩, he, hex⟩, hfl⟩ := hg
      have hex' : v = p := hex
      subst hex'
      have hkey : (getN st v).name = k := hkeys (k, v) he
      subst hkey
      have hget : mapGet (getN st nodeId).dependencies (getN st v).name = some v :=
        mapGet_of_mem_nodup _ _ _ he hknodup
      have hedge : sEdge st (getN st nodeId) d v := ⟨(getN st v).name, hname, hfl, hget⟩
      rcases hord d hd v hedge with hlt | htg
      · exact hlt
      · exact absurd (htg.tail hedge) (hacyc v)

/-- Witness for `claim6_sorted_regular_dependencies` on the store `c6WSt`
(root with dependencies `a@1` at id 1 and `b@1` at id 2, where only `a@1`
peer-depends on `b`): the result is `[2, 1]`, i.e. `b@1` before `a@1`. -/
theorem claim6_sorted_regular_dependencies_witness :
    (∀ x, x ∈ [2, 1] ↔ goodDep c6WSt (getN c6WSt 0) x)
    ∧ ([2, 1] : List Nat).Nodup ∧ peerOrderOK c6WSt [2, 1] :=
  claim6_sorted_regular_dependencies c6WSt 0 20 [2, 1]
    (by decide) (by decide) rfl c6WSt_acyclic

/-- C10 (corrected), counterexample.  The claim says `getHoistIdentMap`
records no entry for any name in the hoist root's peer names; but the map
is seeded unconditionally with the root's own name, so on `c10St` — whose
root is named `a` and lists `a` among its own peer names — the entry for
the peer name `a` is `[a@1]`, not absent. -/
theorem claim10_peer_name_ident_map_cx :
    setHas (getN c10St 0).peerNames (getN c10St 0).name = true
    ∧ mapGet (getHoistIdentMap c10St 0 []) (getN c10St 0).name
        = some [(getN c10St 0).ident] :=
  ⟨rfl, rfl⟩

/-- C10 (corrected), amended claim: for every hoist root `R` and every peer
name `p` of `R` *other than `R`'s own name* (the seeding of the map with
the root's own entry is the one exception), `getHoistIdentMap` records no
entry for `p` — both the pinning loop and the popularity walk skip names in
`R.peerNames` — hence the `hoistIdents` head map `hoistTo` derives from it
has no entry for `p` either, and `getNodeHoistInfo` classifies every
candidate node named `p` (in any store, on any node path, against any
hoisted dependencies, with or without reason output) as NO with no reason
recorded, so hoisting never places a dependency named `p` under `R`. -/
theorem claim10_peer_names_not_hoistable (st : WStore) (rootId : Nat)
    (pm : List (String × List String)) (p : String)
    (st' : WStore) (rootNodePath : List String) (nodePath : List Nat) (nodeId : Nat)
    (hoistedDependencies : List (String × Nat)) (outputReason : Bool)
    (hpeer : setHas (getN st rootId).peerNames p = true)
    (hne : ¬ p = (getN st rootId).name)
    (hname : (getN st' nodeId).name = p) :
    mapGet (getHoistIdentMap st rootId pm) p = none
    ∧ getNodeHoistInfo st' rootNodePath nodePath nodeId hoistedDependencies
        ((getHoistIdentMap st rootId pm).map (fun e => (e.1, e.2.getD 0 "")))
        (getHoistIdentMap st rootId pm) outputReason = HoistInfo.no none := by
  have h1 := getHoistIdentMap_peer_none st rootId pm p hpeer hne
  refine ⟨h1, getNodeHoistInfo_no_ident _ _ _ _ _ _ _ _ ?_⟩
  rw [hname]
  exact mapGet_map_snd_none (getHoistIdentMap st rootId pm) (fun e => e.2.getD 0 "") p h1

/-- Witness for `claim10_peer_names_not_hoistable`: hoist root `a@1`
(id 1 of `c6WSt`) peer-depends on `b`, and the candidate `b@1` (id 2) is
classified NO against the maps derived from that root. -/
theorem claim10_peer_names_not_hoistable_witness :
    mapGet (getHoistIdentMap c6WSt 1 []) "b" = none
    ∧ getNodeHoistInfo c6WSt [] [] 2 []
        ((getHoistIdentMap c6WSt 1 []).map (fun e => (e.1, e.2.getD 0 "")))
        (getHoistIdentMap c6WSt 1 []) false = HoistInfo.no none :=
  claim10_peer_names_not_hoistable c6WSt 1 [] "b" c6WSt [] [] 2 [] false
    rfl (by decide) rfl

/-- C9 (confirmed).  Name uniqueness of the output: whenever `hoist`
succeeds, no node of the returned output store has two children with the
same name — the work store keeps every dependency map keyed by its target's
name with distinct keys throughout cloning and hoisting, and `shrinkTree`
therefore attaches to each output node at most one child per name. -/
theorem claim9_output_name_uniqueness (forest : InForest) (rootId : Nat)
    (opts : HoistOptions) (env : Option String) (fuel : Nat) :
    resultOk (hoist forest rootId opts env fuel) := by
  unfold hoist
  generalize hoistDebugLevel opts.debugLevel env = dl
  cases hc : cloneTree forest rootId fuel with
  | none => exact trivial
  | some p =>
    obtain ⟨st0, tid⟩ := p
    simp only [hc]
    have hwf0 := cloneTree_WF forest rootId fuel st0 tid hc
    cases hht : hoistTo fuel st0 tid tid [(getN st0 tid).locator]
        { check := opts.check.getD false || decide (dl ≥ 9), debugLevel := dl } [] with
    | none => simp only [hht]; exact trivial
    | some r =>
      cases r with
      | error e => simp only [hht]; exact trivial
      | ok st1 =>
        simp only [hht]
        obtain ⟨hwf1, _⟩ := htGo_WF tid
          { check := opts.check.getD false || decide (dl ≥ 9), debugLevel := dl } fuel
          (HTTask.root tid [(getN st0 tid).locator] []) st0 st1 hht hwf0
        by_cases hdl : dl ≥ 1
        · rw [if_pos hdl]
          cases hsc : selfCheck st1 tid fuel with
          | none => exact trivial
          | some checkLog =>
            simp only [hsc]
            by_cases hlog : checkLog ≠ ""
            · rw [if_pos hlog]
              cases hdp : dumpDepTree st1 tid fuel with
              | none => exact trivial
              | some dump => exact trivial
            · rw [if_neg hlog]
              cases hsh : shrinkTree st1 tid fuel with
              | none => exact trivial
              | some rst => exact shrinkTree_ok st1 tid fuel rst hwf1 hsh
        · rw [if_neg hdl]
          cases hsh : shrinkTree st1 tid fuel with
          | none => exact trivial
          | some rst => exact shrinkTree_ok st1 tid fuel rst hwf1 hsh

end Hoist
